import Mathlib

set_option autoImplicit false

/-!
Shallow embedding of the absfs/c4fs copy-on-write manifest filesystem
(`c4fs.go`, `dehydrating_file.go`, `filesystem.go`, `store.go`).

Go strings are modelled as lists of characters (`Str`).  The external
`c4m.Manifest` type is modelled from the spec (§3, §4.5) as an ordered list of
entries whose `AddEntry` appends and whose `GetEntry` is a linear first-match
lookup; `Manifest.Copy` is value-identity.  The external `c4` fingerprint is
idealized per spec §6 as the content itself (deterministic, collision-free
digest); `none` plays the role of the zero `c4.ID{}`.  Timestamps are opaque
naturals passed explicitly where the Go code calls `time.Now()`; the synthetic
root entry's timestamp is modelled as `0` (no claim observes it).  Locks are
dropped: the embedding is functional, mutation returns a new state.
-/

namespace C4fs

/-- Go strings modelled as lists of characters. -/
abbrev Str := List Char

/-- Converts a Lean string literal into a modelled Go string. -/
def str (s : String) : Str := s.data

/-! ### Go `strings` / `path/filepath` helpers used by c4fs.go -/

/-- `strings.Split(s, "/")`: split on every slash, keeping empty pieces. -/
def splitOnSlash : Str → List Str
  | [] => [[]]
  | c :: rest =>
    if c = '/' then [] :: splitOnSlash rest
    else
      match splitOnSlash rest with
      | [] => [[c]]
      | s :: ss => (c :: s) :: ss

/-- `strings.Join(l, "/")`. -/
def intercalateSlash : List Str → Str
  | [] => []
  | [s] => s
  | s :: rest => s ++ '/' :: intercalateSlash rest

/-- `strings.HasPrefix`. -/
def isPre : Str → Str → Bool
  | [], _ => true
  | _ :: _, [] => false
  | a :: as, b :: bs => if a = b then isPre as bs else false

/-- `strings.TrimPrefix`. -/
def trimPre (s pre : Str) : Str := if isPre pre s then s.drop pre.length else s

/-- `strings.Contains(s, "/")`. -/
def containsSlash : Str → Bool
  | [] => false
  | c :: rest => if c = '/' then true else containsSlash rest

/-- `strings.Replace(s, old, new, 1)`: replace the leftmost occurrence. -/
def replaceFirst (old nw : Str) : Str → Str
  | [] => if isPre old [] then nw else []
  | c :: rest =>
    if isPre old (c :: rest) then nw ++ (c :: rest).drop old.length
    else c :: replaceFirst old nw rest

/-- Element filtering step of `filepath.Clean`: empty and "." elements drop. -/
def keepComp : List Str → List Str
  | [] => []
  | c :: rest => if c = [] ∨ c = str "." then keepComp rest else c :: keepComp rest

/-- ".." handling step of `filepath.Clean`'s element loop. -/
def cleanStep (rooted : Bool) (stack : List Str) (c : Str) : List Str :=
  if c = str ".." then
    if stack ≠ [] ∧ stack.getLast? ≠ some (str "..") then stack.dropLast
    else if rooted then stack
    else stack ++ [c]
  else stack ++ [c]

def cleanStack (rooted : Bool) : List Str → List Str → List Str
  | stack, [] => stack
  | stack, c :: rest => cleanStack rooted (cleanStep rooted stack c) rest

/-- `filepath.Clean` (unix rules), computed element-wise: drop empty and "."
elements, resolve ".." against the element stack, keep rootedness. -/
def clean (p : Str) : Str :=
  if p = [] then str "." else
  let rooted := isPre (str "/") p
  let stack := cleanStack rooted [] (keepComp (splitOnSlash p))
  let out := intercalateSlash stack
  if rooted then '/' :: out
  else if out = [] then str "." else out

/-- The recurring pattern `path = filepath.Clean(path); if path == "." || path
== "/" { path = "" }`: the canonical empty-string root key. -/
def normPath (p : Str) : Str :=
  let q := clean p
  if q = str "." ∨ q = str "/" then [] else q

/-- Reversed-list helper: drop leading slashes. -/
def revDropSlashes : Str → Str
  | [] => []
  | c :: rest => if c = '/' then revDropSlashes rest else c :: rest

/-- Reversed-list helper: take up to the first slash. -/
def revTakeNonSlash : Str → Str
  | [] => []
  | c :: rest => if c = '/' then [] else c :: revTakeNonSlash rest

/-- Reversed-list helper: drop up to the first slash, keeping it. -/
def revDropToSlash : Str → Str
  | [] => []
  | c :: rest => if c = '/' then c :: rest else revDropToSlash rest

/-- `filepath.Base`. -/
def baseName (p : Str) : Str :=
  if p = [] then str "." else
  let q := (revDropSlashes p.reverse).reverse
  let r := (revTakeNonSlash q.reverse).reverse
  if r = [] then str "/" else r

/-- `filepath.Dir`: everything up to and including the final slash, cleaned. -/
def dirName (p : Str) : Str := clean ((revDropToSlash p.reverse).reverse)

/-- `filepath.IsAbs` (unix). -/
def isAbs (p : Str) : Bool := isPre (str "/") p

/-- `filepath.Join`: skip leading empty elements, join the rest, clean. -/
def joinList : List Str → Str
  | [] => []
  | e :: rest => if e = [] then joinList rest else clean (intercalateSlash (e :: rest))

def join2 (a b : Str) : Str := joinList [a, b]

/-! ### Data model -/

/-- `fs.FileMode` restricted to the bits the code uses. -/
structure Mode where
  dir : Bool
  symlink : Bool
  perm : Nat
deriving DecidableEq

/-- A plain permission mode (no type bits). -/
def filePerm (n : Nat) : Mode := ⟨false, false, n⟩

/-- `m | fs.ModeDir`. -/
def Mode.orDir (m : Mode) : Mode := ⟨true, m.symlink, m.perm⟩

/-- `fs.ModeSymlink | 0777`. -/
def symlinkMode : Mode := ⟨false, true, 0o777⟩

/-- The zero `fs.FileMode` used for tombstones. -/
def zeroMode : Mode := ⟨false, false, 0⟩

/-- Modelled from the spec (§6, external c4 library): a fingerprint is a
deterministic, collision-resistant digest of the byte content, idealized as
the content itself; `none` is the zero `c4.ID{}`. -/
abbrev C4ID := Option (List Nat)

/-- `c4.Identify`. -/
def identify (data : List Nat) : C4ID := some data

/-- `c4m.Entry`: path, fingerprint, size (with the `-1` tombstone sentinel),
mode, timestamp, symlink target. -/
structure Entry where
  mode : Mode
  timestamp : Nat
  size : Int
  name : Str
  c4id : C4ID
  target : Str
deriving DecidableEq

/-- `Entry.IsDir()`. -/
def Entry.isDir (e : Entry) : Bool := e.mode.dir

/-- Modelled from the spec (§3, external c4m library): a Manifest is an
ordered collection of Entries. -/
abbrev Manifest := List Entry

/-- `c4m.NewManifest`. -/
def newManifest : Manifest := []

/-- Modelled from the spec (§4.5, external c4m library): `AddEntry` appends
the entry to the ordered collection. -/
def addEntry (m : Manifest) (e : Entry) : Manifest := m ++ [e]

/-- Modelled from the spec (external c4m library): `GetEntry` is a linear
lookup by entry name (first match). -/
def manifestGet? : Manifest → Str → Option Entry
  | [], _ => none
  | e :: rest, name => if e.name = name then some e else manifestGet? rest name

/-! ### Path index (Go `map[string]*c4m.Entry`) -/

abbrev Index := List (Str × Entry)

def idxFind? : Index → Str → Option Entry
  | [], _ => none
  | (k, v) :: rest, name => if k = name then some v else idxFind? rest name

def idxRemove : Index → Str → Index
  | [], _ => []
  | (k, v) :: rest, name =>
    if k = name then idxRemove rest name else (k, v) :: idxRemove rest name

/-- Map write: replaces any existing binding for the key. -/
def idxInsert (idx : Index) (name : Str) (e : Entry) : Index :=
  (name, e) :: idxRemove idx name

/-- `buildIndex`: path → entry map from a manifest (later entries win). -/
def buildIndex (m : Manifest) : Index :=
  m.foldl (fun idx e => idxInsert idx e.name e) []

/-! ### Content store (`StoreAdapter` over an in-memory store) -/

abbrev Store := List (C4ID × List Nat)

def storeGet : Store → C4ID → Option (List Nat)
  | [], _ => none
  | (k, v) :: rest, cid => if k = cid then some v else storeGet rest cid

/-- `StoreAdapter.Put`: compute the id, skip the write when present. -/
def storePut (st : Store) (data : List Nat) : C4ID × Store :=
  let cid := identify data
  match storeGet st cid with
  | some _ => (cid, st)
  | none => (cid, (cid, data) :: st)

/-- A store only holds content under its own fingerprint. -/
def StoreWF (st : Store) : Prop := ∀ p ∈ st, p.1 = identify p.2

instance (st : Store) : Decidable (StoreWF st) := by
  unfold StoreWF
  infer_instance

/-! ### Errors (`fs.PathError`) -/

inductive ErrKind where
  | notExist
  | alreadyExists
  | notDirectory
  | dirNotEmpty
  | tooManyLinks
  | rootForbidden
  | isDirectory
  | storeFailure
deriving DecidableEq

structure PErr where
  op : String
  path : Str
  kind : ErrKind
deriving DecidableEq

/-- Go's `(value, error)` return shape. -/
inductive Res (α : Type) where
  | ok (val : α)
  | err (e : PErr)
deriving DecidableEq

/-! ### The FS (COW Composer) -/

structure FS where
  base : Manifest
  layer : Manifest
  store : Store
  baseIndex : Index
  layerIndex : Index
deriving DecidableEq

/-- `New` (nil base is passed as the empty manifest). -/
def New (base : Manifest) (st : Store) : FS :=
  ⟨base, newManifest, st, buildIndex base, []⟩

/-- `NewWithLayer`. -/
def NewWithLayer (base layer : Manifest) (st : Store) : FS :=
  ⟨base, layer, st, buildIndex base, buildIndex layer⟩

/-- The synthetic always-present root entry (`fs.ModeDir | 0755`); its
timestamp (`time.Now()` in Go) is modelled as 0. -/
def rootEntry : Entry := ⟨⟨true, false, 0o755⟩, 0, 0, [], none, []⟩

/-- `getEntry`: layer-then-base lookup, tombstone-aware. -/
def getEntry (fs : FS) (path : Str) : Res Entry :=
  let p := normPath path
  if p = [] then .ok rootEntry
  else
    match idxFind? fs.layerIndex p with
    | some e => if e.size = -1 then .err ⟨"stat", p, .notExist⟩ else .ok e
    | none =>
      match idxFind? fs.baseIndex p with
      | some e => .ok e
      | none => .err ⟨"stat", p, .notExist⟩

/-- `lstatEntry`: identical lookup, `lstat` op tag. -/
def lstatEntry (fs : FS) (path : Str) : Res Entry :=
  let p := normPath path
  if p = [] then .ok rootEntry
  else
    match idxFind? fs.layerIndex p with
    | some e => if e.size = -1 then .err ⟨"lstat", p, .notExist⟩ else .ok e
    | none =>
      match idxFind? fs.baseIndex p with
      | some e => .ok e
      | none => .err ⟨"lstat", p, .notExist⟩

/-- `fs.FileInfo` as built by the code (also the directory-entry payload). -/
structure FileInfo where
  name : Str
  size : Int
  mode : Mode
  modTime : Nat
  isDir : Bool
deriving DecidableEq

def mkInfo (e : Entry) : FileInfo :=
  ⟨baseName e.name, e.size, e.mode, e.timestamp, e.mode.dir⟩

/-- `isDirectChild`. -/
def isDirectChild (parent child : Str) : Bool :=
  let p1 := clean parent
  let c1 := clean child
  let p2 := if p1 = str "." ∨ p1 = str "/" then [] else p1
  if p2 = [] then ¬ containsSlash c1
  else if ¬ isPre (p2 ++ ['/']) c1 then false
  else ¬ containsSlash (trimPre c1 (p2 ++ ['/']))

/-- First pass of `readDir`: scan the layer, collecting seen basenames,
tombstoned basenames, and the listed entries, in order. -/
def layerPass (dir : Str) : List Entry → List Str → List Str →
    List Str × List Str × List FileInfo
  | [], seen, tombs => (seen, tombs, [])
  | e :: rest, seen, tombs =>
    if isDirectChild dir e.name then
      let b := baseName e.name
      if b ∈ seen then layerPass dir rest seen tombs
      else if e.size = -1 then layerPass dir rest (b :: seen) (b :: tombs)
      else
        let r := layerPass dir rest (b :: seen) tombs
        (r.1, r.2.1, mkInfo e :: r.2.2)
    else layerPass dir rest seen tombs

/-- Second pass of `readDir`: scan the base, skipping shadowed and
tombstoned basenames. -/
def basePass (dir : Str) : List Entry → List Str → List Str → List FileInfo
  | [], _, _ => []
  | e :: rest, seen, tombs =>
    if isDirectChild dir e.name then
      let b := baseName e.name
      if b ∉ seen ∧ b ∉ tombs then mkInfo e :: basePass dir rest (b :: seen) tombs
      else basePass dir rest seen tombs
    else basePass dir rest seen tombs

/-- `readDir` (never fails in the Go code; the error return is always nil). -/
def readDir (fs : FS) (name : Str) : List FileInfo :=
  let d := normPath name
  let r := layerPass d fs.layer [] []
  r.2.2 ++ basePass d fs.base r.1 r.2.1

/-- `ReadDir`. -/
def ReadDir (fs : FS) (name : Str) : List FileInfo := readDir fs name

/-! ### Symlink resolution -/

inductive WalkRes where
  | final (resolvedPath : Str)
  | redirect (target : Str)
deriving DecidableEq

/-- The component loop of `resolveSymlink`: walk components left to right,
accumulating the resolved prefix; stop at the first symlink with the computed
redirect target, or return the final resolved path. -/
def walkComps (fs : FS) : List Str → Str → Res WalkRes
  | [], acc => .ok (.final acc)
  | c :: rest, acc =>
    if c = [] ∨ c = str "." then walkComps fs rest acc
    else
      let acc' := if acc = [] then c else join2 acc c
      match lstatEntry fs acc' with
      | .err e => .err e
      | .ok entry =>
        if entry.mode.symlink then
          let t1 :=
            if isAbs entry.target then entry.target
            else
              let d := dirName acc'
              if d ≠ str "." ∧ d ≠ [] then join2 d entry.target else entry.target
          let t2 := if rest = [] then t1 else join2 t1 (joinList rest)
          .ok (.redirect t2)
        else walkComps fs rest acc'

/-- `resolveSymlink` with its decrementing hop budget (`maxDepth <= 0` is the
"too many levels of symbolic links" error). -/
def resolveSymlink (fs : FS) (path : Str) : Nat → Res Entry
  | 0 => .err ⟨"stat", path, .tooManyLinks⟩
  | fuel + 1 =>
    let p := clean path
    match walkComps fs (splitOnSlash p) [] with
    | .err e => .err e
    | .ok (.final acc) => lstatEntry fs acc
    | .ok (.redirect target) => resolveSymlink fs target fuel

/-- `Stat` (follows symlinks, budget 40). -/
def Stat (fs : FS) (name : Str) : Res FileInfo :=
  match resolveSymlink fs name 40 with
  | .err e => .err e
  | .ok e => .ok (mkInfo e)

/-! ### Open / ReadFile -/

/-- An open handle: a hydrated regular file or a directory listing. -/
inductive FileH where
  | ro (data : List Nat) (info : FileInfo)
  | dir (entries : List FileInfo) (info : FileInfo)
deriving DecidableEq

/-- `openFile`: hydrate content from the store. -/
def openFile (fs : FS) (name : Str) (e : Entry) : Res FileH :=
  match storeGet fs.store e.c4id with
  | none => .err ⟨"open", name, .storeFailure⟩
  | some data => .ok (.ro data ⟨baseName e.name, e.size, e.mode, e.timestamp, false⟩)

/-- `openDir`. -/
def openDir (fs : FS) (name : Str) (e : Entry) : FileH :=
  .dir (readDir fs name) ⟨baseName e.name, e.size, e.mode.orDir, e.timestamp, true⟩

/-- `Open` (follows symlinks, budget 40). -/
def Open (fs : FS) (name : Str) : Res FileH :=
  match resolveSymlink fs name 40 with
  | .err e => .err e
  | .ok entry =>
    if entry.mode.dir then .ok (openDir fs entry.name entry) else openFile fs name entry

/-- `ReadFile = Open + io.ReadAll`; reading a directory handle fails with
dirFile.Read's "is a directory" error. -/
def ReadFile (fs : FS) (name : Str) : Res (List Nat) :=
  match Open fs name with
  | .err e => .err e
  | .ok (.ro data _) => .ok data
  | .ok (.dir _ info) => .err ⟨"read", info.name, .isDirectory⟩

/-! ### Flatten / Base / ReferencedIDs -/

/-- The tombstoned-path set collected from the layer. -/
def tombstoneNames : Manifest → List Str
  | [] => []
  | e :: rest =>
    if e.size = -1 then e.name :: tombstoneNames rest else tombstoneNames rest

/-- Base copy loop of `Flatten`: every base entry not tombstoned, in order. -/
def flattenBase (tombs : List Str) : Manifest → Manifest
  | [] => []
  | e :: rest =>
    if e.name ∈ tombs then flattenBase tombs rest else e :: flattenBase tombs rest

/-- Layer copy loop of `Flatten`: every non-tombstone layer entry, in order. -/
def flattenLayer : Manifest → Manifest
  | [] => []
  | e :: rest => if e.size = -1 then flattenLayer rest else e :: flattenLayer rest

/-- `Flatten`: base entries (minus tombstoned paths) then live layer entries,
each appended with `AddEntry`. -/
def Flatten (fs : FS) : Manifest :=
  flattenBase (tombstoneNames fs.layer) fs.base ++ flattenLayer fs.layer

/-- `Base` (`Copy` of the base manifest; value-identity in the model). -/
def Base (fs : FS) : Manifest := fs.base

/-- `Layer`. -/
def Layer (fs : FS) : Manifest := fs.layer

/-- Live (non-tombstone) layer path set used by `ReferencedIDs`. -/
def liveLayerNames : Manifest → List Str
  | [] => []
  | e :: rest =>
    if e.size = -1 then liveLayerNames rest else e.name :: liveLayerNames rest

/-- `map[c4.ID]bool` as a duplicate-free list. -/
def setInsert (s : List C4ID) (cid : C4ID) : List C4ID :=
  if cid ∈ s then s else s ++ [cid]

/-- Base loop of `ReferencedIDs`. -/
def refsBase (tombs layerNames : List Str) : Manifest → List C4ID → List C4ID
  | [], acc => acc
  | e :: rest, acc =>
    if e.name ∉ tombs ∧ e.name ∉ layerNames ∧ ¬ e.mode.dir ∧ 0 < e.size then
      refsBase tombs layerNames rest (setInsert acc e.c4id)
    else refsBase tombs layerNames rest acc

/-- Layer loop of `ReferencedIDs`. -/
def refsLayer : Manifest → List C4ID → List C4ID
  | [], acc => acc
  | e :: rest, acc =>
    if e.size ≠ -1 ∧ ¬ e.mode.dir ∧ 0 < e.size then refsLayer rest (setInsert acc e.c4id)
    else refsLayer rest acc

/-- `ReferencedIDs`. -/
def ReferencedIDs (fs : FS) : List C4ID :=
  refsLayer fs.layer
    (refsBase (tombstoneNames fs.layer) (liveLayerNames fs.layer) fs.base [])

/-! ### Mutations -/

/-- Eviction scan of `updateEntryInLayer` (removes the first match only). -/
def removeFirstNamed : Manifest → Str → Manifest
  | [], _ => []
  | e :: rest, name => if e.name = name then rest else e :: removeFirstNamed rest name

/-- `updateEntryInLayer`: evict any existing layer entry by name, append the
new one, update the layer index. -/
def updateEntryInLayer (fs : FS) (e : Entry) : FS :=
  let layer1 :=
    match idxFind? fs.layerIndex e.name with
    | some _ => removeFirstNamed fs.layer e.name
    | none => fs.layer
  { fs with layer := addEntry layer1 e, layerIndex := idxInsert fs.layerIndex e.name e }

/-- `WriteFile`: dehydrate to the store, insert the entry into the layer (the
in-memory store never fails). -/
def WriteFile (fs : FS) (name : Str) (data : List Nat) (perm : Mode) (now : Nat) :
    Res FS :=
  let pr := storePut fs.store data
  let entry : Entry := ⟨perm, now, (data.length : Int), clean name, pr.1, []⟩
  .ok (updateEntryInLayer { fs with store := pr.2 } entry)

/-- `Mkdir`. -/
def Mkdir (fs : FS) (name : Str) (perm : Mode) (now : Nat) : Res FS :=
  let n := normPath name
  if n = [] then .err ⟨"mkdir", n, .alreadyExists⟩
  else
    match manifestGet? fs.layer n with
    | some _ => .err ⟨"mkdir", n, .alreadyExists⟩
    | none =>
      match manifestGet? fs.base n with
      | some _ => .err ⟨"mkdir", n, .alreadyExists⟩
      | none => .ok (updateEntryInLayer fs ⟨perm.orDir, now, 0, n, none, []⟩)

/-- The tombstone entry (`Size = -1`, zero mode, zero id). -/
def tombstoneEntry (name : Str) (now : Nat) : Entry :=
  ⟨zeroMode, now, -1, name, none, []⟩

/-- `Remove`. -/
def Remove (fs : FS) (name : Str) (now : Nat) : Res FS :=
  let n := normPath name
  if n = [] then .err ⟨"remove", n, .rootForbidden⟩
  else
    match getEntry fs n with
    | .err e => .err e
    | .ok entry =>
      if entry.mode.dir ∧ readDir fs n ≠ [] then .err ⟨"remove", n, .dirNotEmpty⟩
      else .ok (updateEntryInLayer fs (tombstoneEntry n now))

/-- `existsPath` (`Exists`). -/
def existsPath (fs : FS) (name : Str) : Bool :=
  match getEntry fs name with
  | .ok _ => true
  | .err _ => false

/-- `RemoveAll`; the recursion over the directory tree is bounded by an
explicit fuel (a termination device only: any fuel at least the tree depth
reproduces the Go recursion, and fuel exhaustion returns the state as-is).
The child loop stops at the first error, as the Go loop returns early. -/
def RemoveAll : Nat → FS → Str → Nat → Res FS
  | 0, fs, _, _ => .ok fs
  | fuel + 1, fs, name, now =>
    let n := clean name
    match getEntry fs n with
    | .err e => if e.kind = .notExist then .ok fs else .err e
    | .ok entry =>
      if entry.mode.dir then
        let kids := (readDir fs n).foldl
          (fun (acc : Res FS) de =>
            match acc with
            | .err e => .err e
            | .ok s => RemoveAll fuel s (join2 n de.name) now)
          (Res.ok fs)
        match kids with
        | .err e => .err e
        | .ok fs' => .ok (updateEntryInLayer fs' (tombstoneEntry n now))
      else .ok (updateEntryInLayer fs (tombstoneEntry n now))

/-- `e.Name == oldname || strings.HasPrefix(e.Name, oldname+"/")`. -/
def inSubtree (old n : Str) : Bool :=
  if n = old then true else isPre (old ++ ['/']) n

/-- Base scan of `Rename`'s descendant collection. -/
def baseDesc (old : Str) : Manifest → List Entry
  | [] => []
  | e :: rest => if inSubtree old e.name then e :: baseDesc old rest else baseDesc old rest

/-- Replace the first entry with the same name, else append (the `found`
loop inside `Rename`). -/
def mergeEntry : List Entry → Entry → List Entry
  | [], e => [e]
  | x :: rest, e => if x.name = e.name then e :: rest else x :: mergeEntry rest e

/-- Layer scan of `Rename`'s descendant collection: skip tombstones, layer
versions override base versions by name. -/
def layerMerge (old : Str) : Manifest → List Entry → List Entry
  | [], acc => acc
  | e :: rest, acc =>
    if e.size = -1 then layerMerge old rest acc
    else if inSubtree old e.name then layerMerge old rest (mergeEntry acc e)
    else layerMerge old rest acc

/-- The rewritten entries (`strings.Replace(e.Name, old, new, 1)`). -/
def renameRewrites (old nw : Str) (l : List Entry) : List Entry :=
  l.map (fun e => ⟨e.mode, e.timestamp, e.size, replaceFirst old nw e.name, e.c4id, e.target⟩)

/-- Insert a batch of entries into the layer, in order. -/
def insertAll : FS → List Entry → FS
  | fs, [] => fs
  | fs, e :: rest => insertAll (updateEntryInLayer fs e) rest

/-- Tombstone the original paths of a batch of entries, in order. -/
def tombstoneAll (now : Nat) : FS → List Entry → FS
  | fs, [] => fs
  | fs, e :: rest => tombstoneAll now (updateEntryInLayer fs (tombstoneEntry e.name now)) rest

/-- `Rename`. -/
def Rename (fs : FS) (oldname newname : Str) (now : Nat) : Res FS :=
  let old := normPath oldname
  let nw := normPath newname
  if old = [] ∨ nw = [] then .err ⟨"rename", old, .rootForbidden⟩
  else
    match getEntry fs old with
    | .err e => .err e
    | .ok oldEntry =>
      if existsPath fs nw then .err ⟨"rename", nw, .alreadyExists⟩
      else if oldEntry.mode.dir then
        let toRename := layerMerge old fs.layer (baseDesc old fs.base)
        let fs1 := insertAll fs (renameRewrites old nw toRename)
        .ok (tombstoneAll now fs1 toRename)
      else
        let fs1 := updateEntryInLayer fs
          ⟨oldEntry.mode, oldEntry.timestamp, oldEntry.size, nw, oldEntry.c4id, oldEntry.target⟩
        .ok (updateEntryInLayer fs1 (tombstoneEntry old now))

/-- `Chmod`. -/
def Chmod (fs : FS) (name : Str) (mode : Mode) : Res FS :=
  match getEntry fs name with
  | .err e => .err e
  | .ok e => .ok (updateEntryInLayer fs ⟨mode, e.timestamp, e.size, clean name, e.c4id, e.target⟩)

/-- `Chtimes` (only mtime is stored). -/
def Chtimes (fs : FS) (name : Str) (mtime : Nat) : Res FS :=
  match getEntry fs name with
  | .err e => .err e
  | .ok e => .ok (updateEntryInLayer fs ⟨e.mode, mtime, e.size, clean name, e.c4id, e.target⟩)

/-- `Symlink` (a layer tombstone falls through to the base check). -/
def Symlink (fs : FS) (target name : Str) (now : Nat) : Res FS :=
  let n := clean name
  let layerHit :=
    match manifestGet? fs.layer n with
    | some e => if e.size = -1 then false else true
    | none => false
  if layerHit then .err ⟨"symlink", n, .alreadyExists⟩
  else if (manifestGet? fs.base n).isSome then .err ⟨"symlink", n, .alreadyExists⟩
  else .ok (updateEntryInLayer fs ⟨symlinkMode, now, 0, n, none, target⟩)

/-- `dehydratingFile.Close` (write session finalize): dehydrate the buffer
and append the entry directly to the layer — the Go code calls
`layer.AddEntry` here, bypassing `updateEntryInLayer`, so the layer index is
not updated; mirrored faithfully. -/
def sessionClose (fs : FS) (name : Str) (data : List Nat) (perm : Mode) (now : Nat) :
    Res FS :=
  let pr := storePut fs.store data
  let entry : Entry := ⟨perm, now, (data.length : Int), clean name, pr.1, []⟩
  .ok { fs with store := pr.2, layer := addEntry fs.layer entry }

/-! ### Mutation sequences (for the COW-isolation claim) -/

inductive Op where
  | write (name : Str) (data : List Nat) (perm : Mode) (now : Nat)
  | mkdir (name : Str) (perm : Mode) (now : Nat)
  | remove (name : Str) (now : Nat)
  | removeAll (fuel : Nat) (name : Str) (now : Nat)
  | rename (oldname newname : Str) (now : Nat)
  | chmod (name : Str) (mode : Mode)
  | chtimes (name : Str) (mtime : Nat)
  | symlink (target name : Str) (now : Nat)
  | sessionClose (name : Str) (data : List Nat) (perm : Mode) (now : Nat)

def runOp (fs : FS) : Op → Res FS
  | .write n d p t => WriteFile fs n d p t
  | .mkdir n p t => Mkdir fs n p t
  | .remove n t => Remove fs n t
  | .removeAll fuel n t => RemoveAll fuel fs n t
  | .rename o n t => Rename fs o n t
  | .chmod n m => Chmod fs n m
  | .chtimes n t => Chtimes fs n t
  | .symlink tg n t => Symlink fs tg n t
  | .sessionClose n d p t => C4fs.sessionClose fs n d p t

/-- Run one operation; a failed operation leaves the state unchanged. -/
def applyOp (fs : FS) (op : Op) : FS :=
  match runOp fs op with
  | .ok fs' => fs'
  | .err _ => fs

def applyOps : FS → List Op → FS
  | fs, [] => fs
  | fs, op :: rest => applyOps (applyOp fs op) rest

/-! ### Well-formedness predicates -/

/-- A single normalized path component: nonempty, slash-free, not "." or "..". -/
def SimpleName (c : Str) : Prop :=
  c ≠ [] ∧ containsSlash c = false ∧ c ≠ str "." ∧ c ≠ str ".."

instance (c : Str) : Decidable (SimpleName c) := by
  unfold SimpleName; infer_instance

/-- A normalized relative path: nonempty, all slash-separated components are
simple.  Such paths are fixed points of `filepath.Clean`. -/
def CleanPath (p : Str) : Prop :=
  p ≠ [] ∧ ∀ c ∈ splitOnSlash p, SimpleName c

instance (p : Str) : Decidable (CleanPath p) := by
  unfold CleanPath; infer_instance

/-- Well-formed composer state: indices agree with the manifests, manifests
have duplicate-free normalized names, and the base holds no tombstones. -/
def WFS (fs : FS) : Prop :=
  fs.baseIndex = buildIndex fs.base ∧
  fs.layerIndex = buildIndex fs.layer ∧
  (fs.base.map Entry.name).Nodup ∧
  (fs.layer.map Entry.name).Nodup ∧
  (∀ e ∈ fs.base, CleanPath e.name) ∧
  (∀ e ∈ fs.layer, CleanPath e.name) ∧
  (∀ e ∈ fs.base, e.size ≠ -1)

instance (fs : FS) : Decidable (WFS fs) := by
  unfold WFS; infer_instance

/-! ### Concrete fixtures for witnesses and counterexamples -/

/-- A base file `a` with content `[10]`. -/
def entA : Entry := ⟨filePerm 0o644, 1, 1, str "a", identify [10], []⟩

/-- A live layer file at the same path `a` with content `[11]`. -/
def entA2 : Entry := ⟨filePerm 0o644, 2, 1, str "a", identify [11], []⟩

/-- Base and layer both live at path `a`. -/
def fsShadow : FS := NewWithLayer [entA] [entA2] [(identify [10], [10]), (identify [11], [11])]

/-- The empty filesystem over an empty store. -/
def fs0 : FS := New [] []

/-- Empty filesystem after `WriteFile("d/f", [1])`: the parent `d` has no
entry in either manifest. -/
def fsOrphan : FS := applyOps fs0 [.write (str "d/f") [1] (filePerm 0o644) 1]

/-- Empty filesystem after `WriteFile("p/q", [2])`. -/
def fsOrphan2 : FS := applyOps fs0 [.write (str "p/q") [2] (filePerm 0o644) 1]

/-- The i-th name of the symlink chain (`l`, `ll`, `lll`, ...). -/
def linkName (i : Nat) : Str := List.replicate (i + 1) 'l'

/-- The i-th symlink of a chain: `linkName i ↦ linkName (i+1)`. -/
def linkEntry (i : Nat) : Entry := ⟨symlinkMode, 0, 0, linkName i, none, linkName (i + 1)⟩

/-- The regular file at the end of a chain of depth `n`. -/
def chainFile (n : Nat) : Entry := ⟨filePerm 0o644, 0, 1, linkName n, identify [1], []⟩

/-- Layer of a symlink chain of depth `n`: `linkName i ↦ linkName (i+1)` for
`i < n`, with a regular file at `linkName n`. -/
def chainLayer (n : Nat) : Manifest := (List.range n).map linkEntry ++ [chainFile n]

/-- A filesystem whose layer is a symlink chain of depth `n`. -/
def chainFS (n : Nat) : FS := NewWithLayer [] (chainLayer n) [(identify [1], [1])]

/-- A cyclic pair of symlinks `a ↦ b ↦ a`. -/
def cycFS : FS :=
  NewWithLayer []
    [⟨symlinkMode, 0, 0, str "a", none, str "b"⟩,
     ⟨symlinkMode, 0, 0, str "b", none, str "a"⟩] []

/-- Filesystem whose only record at `a` is a layer tombstone (write then
remove on an empty base). -/
def fsTomb : FS := applyOps fs0 [.write (str "a") [5] (filePerm 0o644) 1, .remove (str "a") 2]

/-- A directory entry `d` and a file `d/x` in the layer. -/
def entDirD : Entry := ⟨⟨true, false, 0o755⟩, 0, 0, str "d", none, []⟩

def entFileDX : Entry := ⟨filePerm 0o644, 0, 1, str "d/x", identify [3], []⟩

/-- Layer directory `d` containing `d/x`. -/
def fsDir : FS := NewWithLayer [] [entDirD, entFileDX] [(identify [3], [3])]

/-- Two files with identical content `[9, 9]` on an empty base. -/
def fsDup : FS :=
  applyOps fs0 [.write (str "f1") [9, 9] (filePerm 0o644) 1,
                .write (str "f2") [9, 9] (filePerm 0o644) 2]

/-- A base-only file `a` (content in the store). -/
def fsBaseOnly : FS := New [entA] [(identify [10], [10])]

/-- Empty filesystem after `WriteFile("a", [7, 8])`. -/
def fsW : FS := applyOps fs0 [.write (str "a") [7, 8] (filePerm 0o644) 3]

/-- The base-only filesystem after `Remove("a")`. -/
def fsRm : FS := applyOps fsBaseOnly [.remove (str "a") 5]

/-- Result of the degenerate directory rename of `d` onto `d/e` (the new
name lies under the old one). -/
def fsRenCE : FS :=
  match Rename fsDir (str "d") (str "d/e") 7 with
  | .ok fs2 => fs2
  | .err _ => fsDir

/-- Result of the well-behaved directory rename of `d` to `n`. -/
def fsRenW : FS :=
  match Rename fsDir (str "d") (str "n") 7 with
  | .ok fs2 => fs2
  | .err _ => fsDir

/-! ## Lemmas: strings and path normalization -/

theorem splitOnSlash_ne_nil (p : Str) : splitOnSlash p ≠ [] := by
  induction p with
  | nil => simp [splitOnSlash]
  | cons c rest ih =>
    simp only [splitOnSlash]
    split
    · simp
    · cases h : splitOnSlash rest with
      | nil => simp
      | cons s ss => simp

theorem intercalateSlash_splitOnSlash (p : Str) :
    intercalateSlash (splitOnSlash p) = p := by
  induction p with
  | nil => simp [splitOnSlash, intercalateSlash]
  | cons c rest ih =>
    simp only [splitOnSlash]
    split
    · rename_i hc
      subst hc
      cases h : splitOnSlash rest with
      | nil => exact absurd h (splitOnSlash_ne_nil rest)
      | cons s ss =>
        rw [h] at ih
        simp only [intercalateSlash]
        cases ss with
        | nil => simp_all [intercalateSlash]
        | cons s2 ss2 => simp_all [intercalateSlash]
    · cases h : splitOnSlash rest with
      | nil => exact absurd h (splitOnSlash_ne_nil rest)
      | cons s ss =>
        rw [h] at ih
        cases ss with
        | nil => simp_all [intercalateSlash]
        | cons s2 ss2 => simp_all [intercalateSlash]

theorem splitOnSlash_cons (c : Char) (t : Str) :
    splitOnSlash (c :: t) =
      if c = '/' then [] :: splitOnSlash t
      else
        match splitOnSlash t with
        | [] => [[c]]
        | s :: ss => (c :: s) :: ss := rfl

theorem splitOnSlash_append_slash (a b : Str) :
    splitOnSlash (a ++ '/' :: b) = splitOnSlash a ++ splitOnSlash b := by
  induction a with
  | nil => simp [splitOnSlash]
  | cons c rest ih =>
    rw [List.cons_append, splitOnSlash_cons c (rest ++ '/' :: b), splitOnSlash_cons c rest, ih]
    by_cases hc : c = '/'
    · rw [if_pos hc, if_pos hc]
      simp
    · rw [if_neg hc, if_neg hc]
      cases h : splitOnSlash rest with
      | nil => exact absurd h (splitOnSlash_ne_nil rest)
      | cons s ss => simp

theorem containsSlash_eq_false_iff (p : Str) :
    containsSlash p = false ↔ '/' ∉ p := by
  induction p with
  | nil => simp [containsSlash]
  | cons c rest ih =>
    simp only [containsSlash]
    by_cases hc : c = '/'
    · subst hc; simp
    · simp [hc, ih, Ne.symm hc]

theorem splitOnSlash_no_slash (p : Str) (h : containsSlash p = false) :
    splitOnSlash p = [p] := by
  induction p with
  | nil => simp [splitOnSlash]
  | cons c rest ih =>
    simp only [containsSlash] at h
    by_cases hc : c = '/'
    · simp [hc] at h
    · rw [if_neg hc] at h
      simp only [splitOnSlash, if_neg hc, ih h]

theorem keepComp_of_simple (l : List Str) (h : ∀ c ∈ l, SimpleName c) :
    keepComp l = l := by
  induction l with
  | nil => rfl
  | cons c rest ih =>
    have hc := h c (by simp)
    obtain ⟨h1, _, h3, _⟩ := hc
    simp only [keepComp]
    rw [if_neg (by simp [h1, h3]), ih (fun x hx => h x (by simp [hx]))]

theorem cleanStack_no_dotdot (rooted : Bool) (l : List Str) (stack : List Str)
    (h : ∀ c ∈ l, c ≠ str "..") :
    cleanStack rooted stack l = stack ++ l := by
  induction l generalizing stack with
  | nil => simp [cleanStack]
  | cons c rest ih =>
    simp only [cleanStack, cleanStep, if_neg (h c (by simp))]
    rw [ih (stack ++ [c]) (fun x hx => h x (by simp [hx]))]
    simp

theorem simpleName_head_ne_slash (c : Str) (h : SimpleName c) :
    ∃ ch rest, c = ch :: rest ∧ ch ≠ '/' := by
  obtain ⟨h1, h2, _, _⟩ := h
  cases c with
  | nil => exact absurd rfl h1
  | cons ch rest =>
    refine ⟨ch, rest, rfl, ?_⟩
    intro hch
    rw [containsSlash_eq_false_iff] at h2
    exact h2 (by simp [hch])

theorem cleanPath_head (p : Str) (h : CleanPath p) :
    ∃ ch rest, p = ch :: rest ∧ ch ≠ '/' := by
  obtain ⟨hne, hall⟩ := h
  cases hs : splitOnSlash p with
  | nil => exact absurd hs (splitOnSlash_ne_nil p)
  | cons c cs =>
    have hc : SimpleName c := hall c (by rw [hs]; simp)
    obtain ⟨ch, rest, hcr, hch⟩ := simpleName_head_ne_slash c hc
    have hp := intercalateSlash_splitOnSlash p
    rw [hs] at hp
    cases cs with
    | nil =>
      simp only [intercalateSlash] at hp
      exact ⟨ch, rest, by rw [← hp, hcr], hch⟩
    | cons c2 cs2 =>
      simp only [intercalateSlash] at hp
      rw [hcr] at hp
      exact ⟨ch, rest ++ '/' :: intercalateSlash (c2 :: cs2), by rw [← hp]; simp, hch⟩

theorem isPre_slash_eq_false (p : Str) (h : CleanPath p) :
    isPre (str "/") p = false := by
  obtain ⟨ch, rest, hp, hch⟩ := cleanPath_head p h
  subst hp
  simp only [str, isPre]
  simp [Ne.symm hch]

theorem clean_of_cleanPath (p : Str) (h : CleanPath p) : clean p = p := by
  obtain ⟨hne, hall⟩ := h
  have hroot := isPre_slash_eq_false p ⟨hne, hall⟩
  simp only [clean, if_neg hne, hroot]
  rw [keepComp_of_simple _ hall,
      cleanStack_no_dotdot _ _ _ (fun c hc => (hall c hc).2.2.2),
      List.nil_append, intercalateSlash_splitOnSlash]
  simp only [Bool.false_eq_true, if_false]
  rw [if_neg hne]

theorem cleanPath_ne_dot (p : Str) (h : CleanPath p) : p ≠ str "." := by
  intro hp
  subst hp
  have := h.2 (str ".") (by simp [str, splitOnSlash])
  exact this.2.2.1 rfl

theorem cleanPath_ne_slash (p : Str) (h : CleanPath p) : p ≠ str "/" := by
  intro hp
  obtain ⟨ch, rest, hpr, hch⟩ := cleanPath_head p h
  rw [hp] at hpr
  simp [str] at hpr
  exact hch hpr.1.symm

theorem normPath_of_cleanPath (p : Str) (h : CleanPath p) : normPath p = p := by
  simp only [normPath, clean_of_cleanPath p h]
  rw [if_neg (by push_neg; exact ⟨cleanPath_ne_dot p h, cleanPath_ne_slash p h⟩)]

theorem cleanPath_of_simple (c : Str) (h : SimpleName c) : CleanPath c := by
  refine ⟨h.1, ?_⟩
  rw [splitOnSlash_no_slash c h.2.1]
  intro x hx
  simp at hx
  subst hx
  exact h

theorem cleanPath_append (a b : Str) (ha : CleanPath a) (hb : CleanPath b) :
    CleanPath (a ++ '/' :: b) := by
  refine ⟨by simp [ha.1], ?_⟩
  rw [splitOnSlash_append_slash]
  intro c hc
  rcases List.mem_append.mp hc with h | h
  · exact ha.2 c h
  · exact hb.2 c h

theorem cleanPath_append_simple (a c : Str) (ha : CleanPath a) (hc : SimpleName c) :
    CleanPath (a ++ '/' :: c) :=
  cleanPath_append a c ha (cleanPath_of_simple c hc)

theorem clean_simple (c : Str) (h : SimpleName c) : clean c = c :=
  clean_of_cleanPath c (cleanPath_of_simple c h)

theorem cleanPath_not_nil (p : Str) (h : CleanPath p) : p ≠ [] := h.1

/-! ## Lemmas: Flatten -/

theorem mem_tombstoneNames (m : Manifest) (n : Str) :
    n ∈ tombstoneNames m ↔ ∃ e ∈ m, e.name = n ∧ e.size = -1 := by
  induction m with
  | nil => simp [tombstoneNames]
  | cons e rest ih =>
    by_cases h : e.size = -1
    · simp only [tombstoneNames, if_pos h, List.mem_cons, ih]
      constructor
      · rintro (rfl | ⟨f, hf, rfl, hs⟩)
        · exact ⟨e, by simp, rfl, h⟩
        · exact ⟨f, by simp [hf], rfl, hs⟩
      · rintro ⟨f, hf, rfl, hs⟩
        rcases hf with rfl | hf
        · exact Or.inl rfl
        · exact Or.inr ⟨f, hf, rfl, hs⟩
    · simp only [tombstoneNames, if_neg h, ih]
      constructor
      · rintro ⟨f, hf, rfl, hs⟩
        exact ⟨f, by simp [hf], rfl, hs⟩
      · rintro ⟨f, hf, rfl, hs⟩
        rcases List.mem_cons.mp hf with rfl | hf
        · exact absurd hs h
        · exact ⟨f, hf, rfl, hs⟩

theorem mem_flattenBase (tombs : List Str) (m : Manifest) (e : Entry) :
    e ∈ flattenBase tombs m ↔ e ∈ m ∧ e.name ∉ tombs := by
  induction m with
  | nil => simp [flattenBase]
  | cons f rest ih =>
    by_cases h : f.name ∈ tombs
    · simp only [flattenBase, if_pos h, ih, List.mem_cons]
      constructor
      · rintro ⟨hm, ht⟩
        exact ⟨Or.inr hm, ht⟩
      · rintro ⟨rfl | hm, ht⟩
        · exact absurd h ht
        · exact ⟨hm, ht⟩
    · simp only [flattenBase, if_neg h, List.mem_cons, ih]
      constructor
      · rintro (rfl | ⟨hm, ht⟩)
        · exact ⟨Or.inl rfl, h⟩
        · exact ⟨Or.inr hm, ht⟩
      · rintro ⟨rfl | hm, ht⟩
        · exact Or.inl rfl
        · exact Or.inr ⟨hm, ht⟩

theorem mem_flattenLayer (m : Manifest) (e : Entry) :
    e ∈ flattenLayer m ↔ e ∈ m ∧ e.size ≠ -1 := by
  induction m with
  | nil => simp [flattenLayer]
  | cons f rest ih =>
    by_cases h : f.size = -1
    · simp only [flattenLayer, if_pos h, ih, List.mem_cons]
      constructor
      · rintro ⟨hm, ht⟩
        exact ⟨Or.inr hm, ht⟩
      · rintro ⟨rfl | hm, ht⟩
        · exact absurd h ht
        · exact ⟨hm, ht⟩
    · simp only [flattenLayer, if_neg h, List.mem_cons, ih]
      constructor
      · rintro (rfl | ⟨hm, ht⟩)
        · exact ⟨Or.inl rfl, h⟩
        · exact ⟨Or.inr hm, ht⟩
      · rintro ⟨rfl | hm, ht⟩
        · exact Or.inl rfl
        · exact Or.inr ⟨hm, ht⟩

theorem mem_flatten_iff (fs : FS) (e : Entry) :
    e ∈ Flatten fs ↔
      (e ∈ fs.base ∧ ∀ t ∈ fs.layer, t.size = -1 → t.name ≠ e.name) ∨
      (e ∈ fs.layer ∧ e.size ≠ -1) := by
  simp only [Flatten, List.mem_append, mem_flattenBase, mem_flattenLayer,
    mem_tombstoneNames]
  constructor
  · rintro (⟨hm, ht⟩ | h)
    · refine Or.inl ⟨hm, fun t htl hts heq => ht ⟨t, htl, heq, hts⟩⟩
    · exact Or.inr h
  · rintro (⟨hm, ht⟩ | h)
    · refine Or.inl ⟨hm, ?_⟩
      rintro ⟨t, htl, heq, hts⟩
      exact ht t htl hts heq
    · exact Or.inr h

/-- C1 is false as stated on the code: with a base entry and a live layer
entry at the same path `a`, the flattened manifest contains that path twice,
so it does not have at most one Entry per path. -/
theorem c1_flatten_counterexample :
    entA2.name = entA.name ∧ entA.size ≠ -1 ∧ entA2.size ≠ -1 ∧
    fsShadow.base = [entA] ∧ fsShadow.layer = [entA2] ∧
    ¬ ((Flatten fsShadow).map Entry.name).Nodup := by decide

/-- C1 (amended): for every base without tombstones and every layer, `Flatten`
returns exactly the base entries whose path is not tombstoned in the layer
plus all live (non-tombstone) layer entries; the result contains no
tombstones, and all base-derived entries precede all layer-derived entries
(so the layer's entry for a shadowed path comes later); but a path present
live in both base and layer occurs twice rather than at most once. -/
theorem c1_flatten_merge (fs : FS) (hb : ∀ e ∈ fs.base, e.size ≠ -1) :
    (∀ e ∈ Flatten fs, e.size ≠ -1) ∧
    (∀ e : Entry, e ∈ Flatten fs ↔
      (e ∈ fs.base ∧ ∀ t ∈ fs.layer, t.size = -1 → t.name ≠ e.name) ∨
      (e ∈ fs.layer ∧ e.size ≠ -1)) ∧
    (∃ bpart lpart, Flatten fs = bpart ++ lpart ∧
      (∀ e ∈ bpart, e ∈ fs.base) ∧ (∀ e ∈ lpart, e ∈ fs.layer)) := by
  refine ⟨?_, fun e => mem_flatten_iff fs e, ?_⟩
  · intro e he
    rcases (mem_flatten_iff fs e).mp he with ⟨hm, _⟩ | ⟨_, hs⟩
    · exact hb e hm
    · exact hs
  · refine ⟨flattenBase (tombstoneNames fs.layer) fs.base, flattenLayer fs.layer,
      rfl, ?_, ?_⟩
    · intro e he
      exact ((mem_flattenBase _ _ _).mp he).1
    · intro e he
      exact ((mem_flattenLayer _ _).mp he).1

/-- Witness: the amended C1 theorem applied to the shadowed filesystem. -/
theorem c1_flatten_merge_witness :
    (∀ e ∈ Flatten fsShadow, e.size ≠ -1) ∧
    (∀ e : Entry, e ∈ Flatten fsShadow ↔
      (e ∈ fsShadow.base ∧ ∀ t ∈ fsShadow.layer, t.size = -1 → t.name ≠ e.name) ∨
      (e ∈ fsShadow.layer ∧ e.size ≠ -1)) ∧
    (∃ bpart lpart, Flatten fsShadow = bpart ++ lpart ∧
      (∀ e ∈ bpart, e ∈ fsShadow.base) ∧ (∀ e ∈ lpart, e ∈ fsShadow.layer)) :=
  c1_flatten_merge fsShadow (by decide)

/-! ## Lemmas: ReferencedIDs -/

theorem mem_setInsert (s : List C4ID) (cid x : C4ID) :
    x ∈ setInsert s cid ↔ x ∈ s ∨ x = cid := by
  by_cases h : cid ∈ s
  · simp only [setInsert, if_pos h]
    constructor
    · exact Or.inl
    · rintro (hx | rfl)
      · exact hx
      · exact h
  · simp [setInsert, if_neg h]

theorem mem_liveLayerNames (m : Manifest) (n : Str) :
    n ∈ liveLayerNames m ↔ ∃ e ∈ m, e.name = n ∧ e.size ≠ -1 := by
  induction m with
  | nil => simp [liveLayerNames]
  | cons e rest ih =>
    by_cases h : e.size = -1
    · simp only [liveLayerNames, if_pos h, ih]
      constructor
      · rintro ⟨f, hf, rfl, hs⟩
        exact ⟨f, by simp [hf], rfl, hs⟩
      · rintro ⟨f, hf, rfl, hs⟩
        rcases List.mem_cons.mp hf with rfl | hf
        · exact absurd h hs
        · exact ⟨f, hf, rfl, hs⟩
    · simp only [liveLayerNames, if_neg h, List.mem_cons]
      constructor
      · rintro (rfl | hx)
        · exact ⟨e, by simp, rfl, h⟩
        · obtain ⟨f, hf, rfl, hs⟩ := ih.mp hx
          exact ⟨f, by simp [hf], rfl, hs⟩
      · rintro ⟨f, hf, rfl, hs⟩
        rcases hf with rfl | hf
        · exact Or.inl rfl
        · exact Or.inr (ih.mpr ⟨f, hf, rfl, hs⟩)

theorem mem_refsBase (tombs layerNames : List Str) (m : Manifest)
    (acc : List C4ID) (x : C4ID) :
    x ∈ refsBase tombs layerNames m acc ↔
      x ∈ acc ∨ ∃ e ∈ m, e.name ∉ tombs ∧ e.name ∉ layerNames ∧
        ¬ e.mode.dir ∧ 0 < e.size ∧ x = e.c4id := by
  induction m generalizing acc with
  | nil => simp [refsBase]
  | cons e rest ih =>
    by_cases h : e.name ∉ tombs ∧ e.name ∉ layerNames ∧ ¬ e.mode.dir ∧ 0 < e.size
    · simp only [refsBase, if_pos h, ih, mem_setInsert]
      constructor
      · rintro ((hx | rfl) | ⟨f, hf, hc⟩)
        · exact Or.inl hx
        · exact Or.inr ⟨e, by simp, h.1, h.2.1, h.2.2.1, h.2.2.2, rfl⟩
        · exact Or.inr ⟨f, by simp [hf], hc⟩
      · rintro (hx | ⟨f, hf, h1, h2, h3, h4, rfl⟩)
        · exact Or.inl (Or.inl hx)
        · rcases List.mem_cons.mp hf with rfl | hf
          · exact Or.inl (Or.inr rfl)
          · exact Or.inr ⟨f, hf, h1, h2, h3, h4, rfl⟩
    · simp only [refsBase, if_neg h, ih]
      constructor
      · rintro (hx | ⟨f, hf, hc⟩)
        · exact Or.inl hx
        · exact Or.inr ⟨f, by simp [hf], hc⟩
      · rintro (hx | ⟨f, hf, h1, h2, h3, h4, rfl⟩)
        · exact Or.inl hx
        · rcases List.mem_cons.mp hf with rfl | hf
          · exact absurd ⟨h1, h2, h3, h4⟩ h
          · exact Or.inr ⟨f, hf, h1, h2, h3, h4, rfl⟩

theorem mem_refsLayer (m : Manifest) (acc : List C4ID) (x : C4ID) :
    x ∈ refsLayer m acc ↔
      x ∈ acc ∨ ∃ e ∈ m, e.size ≠ -1 ∧ ¬ e.mode.dir ∧ 0 < e.size ∧ x = e.c4id := by
  induction m generalizing acc with
  | nil => simp [refsLayer]
  | cons e rest ih =>
    by_cases h : e.size ≠ -1 ∧ ¬ e.mode.dir ∧ 0 < e.size
    · simp only [refsLayer, if_pos h, ih, mem_setInsert]
      constructor
      · rintro ((hx | rfl) | ⟨f, hf, hc⟩)
        · exact Or.inl hx
        · exact Or.inr ⟨e, by simp, h.1, h.2.1, h.2.2, rfl⟩
        · exact Or.inr ⟨f, by simp [hf], hc⟩
      · rintro (hx | ⟨f, hf, h1, h2, h3, rfl⟩)
        · exact Or.inl (Or.inl hx)
        · rcases List.mem_cons.mp hf with rfl | hf
          · exact Or.inl (Or.inr rfl)
          · exact Or.inr ⟨f, hf, h1, h2, h3, rfl⟩
    · simp only [refsLayer, if_neg h, ih]
      constructor
      · rintro (hx | ⟨f, hf, hc⟩)
        · exact Or.inl hx
        · exact Or.inr ⟨f, by simp [hf], hc⟩
      · rintro (hx | ⟨f, hf, h1, h2, h3, rfl⟩)
        · exact Or.inl hx
        · rcases List.mem_cons.mp hf with rfl | hf
          · exact absurd ⟨h1, h2, h3⟩ h
          · exact Or.inr ⟨f, hf, h1, h2, h3, rfl⟩

/-- C7: `ReferencedIDs` returns exactly the fingerprints of the base entries
whose path is neither tombstoned in the layer nor present as a live layer
entry and that are non-directories of positive size, plus the fingerprints of
the live non-directory positive-size layer entries; and on an empty base,
after writing identical content to the two distinct paths `f1` and `f2`, the
returned set has exactly one element. -/
theorem c7_referenced_ids :
    (∀ (fs : FS) (cid : C4ID), cid ∈ ReferencedIDs fs ↔
      (∃ e ∈ fs.base,
        (∀ t ∈ fs.layer, t.size = -1 → t.name ≠ e.name) ∧
        (∀ t ∈ fs.layer, t.size ≠ -1 → t.name ≠ e.name) ∧
        e.isDir = false ∧ 0 < e.size ∧ cid = e.c4id) ∨
      (∃ e ∈ fs.layer, e.size ≠ -1 ∧ e.isDir = false ∧ 0 < e.size ∧ cid = e.c4id)) ∧
    (ReferencedIDs fsDup).length = 1 := by
  constructor
  · intro fs cid
    rw [ReferencedIDs, mem_refsLayer, mem_refsBase]
    simp only [List.not_mem_nil, false_or, mem_tombstoneNames, mem_liveLayerNames,
      Entry.isDir, Bool.not_eq_true]
    constructor
    · rintro (⟨e, he, h1, h2, h3, h4, rfl⟩ | ⟨e, he, h1, h2, h3, rfl⟩)
      · refine Or.inl ⟨e, he, ?_, ?_, by simpa using h3, h4, rfl⟩
        · intro t ht hts heq
          exact h1 ⟨t, ht, heq, hts⟩
        · intro t ht hts heq
          exact h2 ⟨t, ht, heq, hts⟩
      · exact Or.inr ⟨e, he, h1, by simpa using h2, h3, rfl⟩
    · rintro (⟨e, he, h1, h2, h3, h4, rfl⟩ | ⟨e, he, h1, h2, h3, rfl⟩)
      · refine Or.inl ⟨e, he, ?_, ?_, by simpa using h3, h4, rfl⟩
        · rintro ⟨t, ht, heq, hts⟩
          exact h1 t ht hts heq
        · rintro ⟨t, ht, heq, hts⟩
          exact h2 t ht hts heq
      · exact Or.inr ⟨e, he, h1, by simpa using h2, h3, rfl⟩
  · decide

/-! ## Lemmas: COW isolation (base preservation) -/

theorem updateEntryInLayer_base (fs : FS) (e : Entry) :
    (updateEntryInLayer fs e).base = fs.base := rfl

theorem updateEntryInLayer_baseIndex (fs : FS) (e : Entry) :
    (updateEntryInLayer fs e).baseIndex = fs.baseIndex := rfl

theorem updateEntryInLayer_store (fs : FS) (e : Entry) :
    (updateEntryInLayer fs e).store = fs.store := rfl

theorem insertAll_base : ∀ (l : List Entry) (fs : FS), (insertAll fs l).base = fs.base
  | [], fs => rfl
  | e :: rest, fs => by
    rw [insertAll, insertAll_base rest, updateEntryInLayer_base]

theorem tombstoneAll_base (now : Nat) :
    ∀ (l : List Entry) (fs : FS), (tombstoneAll now fs l).base = fs.base
  | [], fs => rfl
  | e :: rest, fs => by
    rw [tombstoneAll, tombstoneAll_base now rest, updateEntryInLayer_base]

theorem foldl_res_err (f : Res FS → FileInfo → Res FS)
    (herr : ∀ e de, f (.err e) de = .err e) :
    ∀ (l : List FileInfo) (e : PErr), l.foldl f (.err e) = .err e
  | [], e => rfl
  | de :: rest, e => by
    rw [List.foldl_cons, herr e de, foldl_res_err f herr rest e]

theorem foldl_res_base (f : Res FS → FileInfo → Res FS)
    (hstep : ∀ s de r, f (.ok s) de = .ok r → r.base = s.base)
    (herr : ∀ e de, f (.err e) de = .err e) :
    ∀ (l : List FileInfo) (s fs' : FS), l.foldl f (.ok s) = .ok fs' → fs'.base = s.base := by
  intro l
  induction l with
  | nil =>
    intro s fs' h
    cases h
    rfl
  | cons de rest ih =>
    intro s fs' h
    rw [List.foldl_cons] at h
    cases hf : f (.ok s) de with
    | err e =>
      rw [hf, foldl_res_err f herr] at h
      cases h
    | ok s1 =>
      rw [hf] at h
      exact (ih s1 fs' h).trans (hstep s de s1 hf)

theorem removeAll_base :
    ∀ (fuel : Nat) (fs : FS) (name : Str) (now : Nat) (fs' : FS),
      RemoveAll fuel fs name now = .ok fs' → fs'.base = fs.base := by
  intro fuel
  induction fuel with
  | zero =>
    intro fs name now fs' h
    cases h
    rfl
  | succ fuel ih =>
    intro fs name now fs' h
    rw [RemoveAll] at h
    split at h
    · split at h
      · cases h
        rfl
      · cases h
    · split at h
      · dsimp only at h
        split at h
        · cases h
        · rename_i fs'' hk
          cases h
          rw [updateEntryInLayer_base]
          exact foldl_res_base _
            (fun s de r hr => ih s (join2 (clean name) de.name) now r hr)
            (fun _ _ => rfl) _ fs fs'' hk
      · cases h
        rw [updateEntryInLayer_base]

theorem runOp_ok_base (fs : FS) (op : Op) (fs' : FS)
    (h : runOp fs op = .ok fs') : fs'.base = fs.base := by
  cases op with
  | write n d p t =>
    rw [runOp, WriteFile] at h
    cases h
    rw [updateEntryInLayer_base]
  | mkdir n p t =>
    rw [runOp, Mkdir] at h
    split at h
    · cases h
    · split at h
      · cases h
      · split at h
        · cases h
        · cases h
          rw [updateEntryInLayer_base]
  | remove n t =>
    rw [runOp, Remove] at h
    split at h
    · cases h
    · split at h
      · cases h
      · split at h
        · cases h
        · cases h
          rw [updateEntryInLayer_base]
  | removeAll fuel n t =>
    rw [runOp] at h
    exact removeAll_base fuel fs n t fs' h
  | rename o n t =>
    rw [runOp, Rename] at h
    split at h
    · cases h
    · split at h
      · cases h
      · split at h
        · cases h
        · split at h
          · cases h
            rw [tombstoneAll_base, insertAll_base]
          · cases h
            rw [updateEntryInLayer_base, updateEntryInLayer_base]
  | chmod n m =>
    rw [runOp, Chmod] at h
    split at h
    · cases h
    · cases h
      rw [updateEntryInLayer_base]
  | chtimes n t =>
    rw [runOp, Chtimes] at h
    split at h
    · cases h
    · cases h
      rw [updateEntryInLayer_base]
  | symlink tg n t =>
    rw [runOp, Symlink] at h
    split at h
    · cases h
    · split at h
      · cases h
      · cases h
        rw [updateEntryInLayer_base]
  | sessionClose n d p t =>
    rw [runOp, sessionClose] at h
    cases h
    rfl

theorem applyOp_base (fs : FS) (op : Op) : (applyOp fs op).base = fs.base := by
  rw [applyOp]
  cases h : runOp fs op with
  | ok fs' => exact runOp_ok_base fs op fs' h
  | err e => rfl

/-- C3: starting from any composer state, no sequence of mutations
(WriteFile, Mkdir, Remove, RemoveAll, Rename, Chmod, Chtimes, Symlink,
write-session Close) ever changes the base manifest, and `Base` still
returns the original base content afterwards. -/
theorem c3_cow_isolation (fs : FS) (ops : List Op) :
    (applyOps fs ops).base = fs.base ∧ Base (applyOps fs ops) = fs.base := by
  suffices h : (applyOps fs ops).base = fs.base from ⟨h, h⟩
  induction ops generalizing fs with
  | nil => rfl
  | cons op rest ih =>
    rw [applyOps, ih (applyOp fs op), applyOp_base]

/-! ## Lemmas: indices and lookups -/

theorem idxFind?_idxRemove (idx : Index) (k n : Str) :
    idxFind? (idxRemove idx k) n = if k = n then none else idxFind? idx n := by
  induction idx with
  | nil => simp [idxRemove, idxFind?]
  | cons kv rest ih =>
    obtain ⟨k1, v1⟩ := kv
    by_cases hk : k1 = k
    · subst hk
      rw [idxRemove, if_pos rfl, ih]
      by_cases hn : k1 = n
      · subst hn
        simp
      · simp [idxFind?, hn]
    · have hk' : k ≠ k1 := fun h => hk h.symm
      rw [idxRemove, if_neg hk]
      by_cases hn : k1 = n
      · subst hn
        rw [if_neg hk']
        simp [idxFind?]
      · rw [idxFind?, if_neg hn, ih]
        by_cases hkn : k = n
        · rw [if_pos hkn, if_pos hkn]
        · rw [if_neg hkn, if_neg hkn, idxFind?, if_neg hn]

theorem idxFind?_idxInsert (idx : Index) (k : Str) (e : Entry) (n : Str) :
    idxFind? (idxInsert idx k e) n = if k = n then some e else idxFind? idx n := by
  rw [idxInsert, idxFind?, idxFind?_idxRemove]
  by_cases h : k = n
  · rw [if_pos h, if_pos h]
  · rw [if_neg h, if_neg h, if_neg h]

theorem manifestGet?_append (l1 l2 : Manifest) (n : Str) :
    manifestGet? (l1 ++ l2) n =
      match manifestGet? l1 n with
      | some e => some e
      | none => manifestGet? l2 n := by
  induction l1 with
  | nil => simp [manifestGet?]
  | cons e rest ih =>
    by_cases h : e.name = n
    · simp [manifestGet?, if_pos h]
    · rw [List.cons_append, manifestGet?, if_neg h, ih, manifestGet?, if_neg h]

theorem idxFind?_foldl (m : Manifest) :
    ∀ (idx : Index) (n : Str),
      idxFind? (m.foldl (fun idx e => idxInsert idx e.name e) idx) n =
        match manifestGet? m.reverse n with
        | some e => some e
        | none => idxFind? idx n := by
  induction m with
  | nil => simp [manifestGet?]
  | cons e rest ih =>
    intro idx n
    rw [List.foldl_cons, ih, List.reverse_cons, manifestGet?_append]
    cases h : manifestGet? rest.reverse n with
    | some f => rfl
    | none =>
      simp only [manifestGet?, idxFind?_idxInsert]
      by_cases hn : e.name = n
      · rw [if_pos hn, if_pos hn]
      · rw [if_neg hn, if_neg hn]

theorem idxFind?_buildIndex (m : Manifest) (n : Str) :
    idxFind? (buildIndex m) n = manifestGet? m.reverse n := by
  rw [buildIndex, idxFind?_foldl]
  cases h : manifestGet? m.reverse n with
  | some f => rfl
  | none => rfl

theorem manifestGet?_eq_none_iff (m : Manifest) (n : Str) :
    manifestGet? m n = none ↔ ∀ e ∈ m, e.name ≠ n := by
  induction m with
  | nil => simp [manifestGet?]
  | cons e rest ih =>
    by_cases h : e.name = n
    · simp [manifestGet?, if_pos h, h]
    · simp [manifestGet?, if_neg h, ih, h]

theorem manifestGet?_mem (m : Manifest) (n : Str) (e : Entry)
    (h : manifestGet? m n = some e) : e ∈ m ∧ e.name = n := by
  induction m with
  | nil => simp [manifestGet?] at h
  | cons f rest ih =>
    by_cases hf : f.name = n
    · rw [manifestGet?, if_pos hf] at h
      cases h
      exact ⟨by simp, hf⟩
    · rw [manifestGet?, if_neg hf] at h
      obtain ⟨hm, hn⟩ := ih h
      exact ⟨by simp [hm], hn⟩

theorem manifestGet?_eq_some_of_mem (m : Manifest) (e : Entry)
    (hd : (m.map Entry.name).Nodup) (hm : e ∈ m) :
    manifestGet? m e.name = some e := by
  induction m with
  | nil => simp at hm
  | cons f rest ih =>
    rw [List.map_cons, List.nodup_cons] at hd
    rcases List.mem_cons.mp hm with rfl | hm
    · rw [manifestGet?, if_pos rfl]
    · by_cases hf : f.name = e.name
      · exact absurd (hf ▸ List.mem_map_of_mem Entry.name hm) hd.1
      · rw [manifestGet?, if_neg hf]
        exact ih hd.2 hm

theorem manifestGet?_reverse_nodup (m : Manifest) (n : Str)
    (hd : (m.map Entry.name).Nodup) :
    manifestGet? m.reverse n = manifestGet? m n := by
  have hd' : (m.reverse.map Entry.name).Nodup := by
    rw [List.map_reverse]
    exact (List.nodup_reverse).mpr hd
  cases h : manifestGet? m n with
  | some e =>
    obtain ⟨hm, hn⟩ := manifestGet?_mem m n e h
    rw [← hn]
    exact manifestGet?_eq_some_of_mem m.reverse e hd' (by simp [hm])
  | none =>
    rw [manifestGet?_eq_none_iff] at h ⊢
    intro e he
    exact h e (by simpa using he)

theorem layerFind_eq (fs : FS) (n : Str) (hw : WFS fs) :
    idxFind? fs.layerIndex n = manifestGet? fs.layer n := by
  rw [hw.2.1, idxFind?_buildIndex, manifestGet?_reverse_nodup _ _ hw.2.2.2.1]

theorem baseFind_eq (fs : FS) (n : Str) (hw : WFS fs) :
    idxFind? fs.baseIndex n = manifestGet? fs.base n := by
  rw [hw.1, idxFind?_buildIndex, manifestGet?_reverse_nodup _ _ hw.2.2.1]

theorem idxFind?_updateEntryInLayer (fs : FS) (e : Entry) (n : Str) :
    idxFind? (updateEntryInLayer fs e).layerIndex n =
      if e.name = n then some e else idxFind? fs.layerIndex n := by
  rw [updateEntryInLayer]
  exact idxFind?_idxInsert fs.layerIndex e.name e n

theorem updateEntryInLayer_layer_of_absent (fs : FS) (e : Entry)
    (h : idxFind? fs.layerIndex e.name = none) :
    (updateEntryInLayer fs e).layer = fs.layer ++ [e] := by
  rw [updateEntryInLayer]
  simp only [h]
  rfl

/-! ## C9: Mkdir precondition -/

/-- C9 is false as stated on the code: on a filesystem whose only record at
`a` is a layer tombstone (empty base), `Mkdir("a")` fails with AlreadyExists
instead of succeeding. -/
theorem c9_mkdir_counterexample :
    fsTomb.base = [] ∧ fsTomb.layer = [tombstoneEntry (str "a") 2] ∧
    Mkdir fsTomb (str "a") (filePerm 0o755) 9 =
      .err ⟨"mkdir", str "a", ErrKind.alreadyExists⟩ := by decide

/-- C9 (amended): for every normalized non-root path, `Mkdir` fails with
AlreadyExists if and only if the path has any record in the layer — live or
tombstone — or any entry in the base; in particular `Mkdir` fails at a path
whose only record is a layer tombstone (the layer existence check does not
exempt tombstones). -/
theorem c9_mkdir_exists_iff (fs : FS) (p : Str) (perm : Mode) (now : Nat)
    (hp : CleanPath p) :
    Mkdir fs p perm now = .err ⟨"mkdir", p, ErrKind.alreadyExists⟩ ↔
      (∃ e ∈ fs.layer, e.name = p) ∨ (∃ e ∈ fs.base, e.name = p) := by
  rw [Mkdir]
  simp only [normPath_of_cleanPath p hp]
  rw [if_neg hp.1]
  cases hl : manifestGet? fs.layer p with
  | some e =>
    simp only [true_iff]
    obtain ⟨hm, hn⟩ := manifestGet?_mem _ _ _ hl
    exact Or.inl ⟨e, hm, hn⟩
  | none =>
    cases hb : manifestGet? fs.base p with
    | some e =>
      simp only [true_iff]
      obtain ⟨hm, hn⟩ := manifestGet?_mem _ _ _ hb
      exact Or.inr ⟨e, hm, hn⟩
    | none =>
      simp only [reduceCtorEq, false_iff]
      rw [manifestGet?_eq_none_iff] at hl hb
      rintro (⟨e, hm, hn⟩ | ⟨e, hm, hn⟩)
      · exact hl e hm hn
      · exact hb e hm hn

/-- Witness: the amended C9 theorem applied to the tombstone-only state. -/
theorem c9_mkdir_exists_iff_witness :
    Mkdir fsTomb (str "a") (filePerm 0o755) 9 =
      .err ⟨"mkdir", str "a", ErrKind.alreadyExists⟩ :=
  (c9_mkdir_exists_iff fsTomb (str "a") (filePerm 0o755) 9 (by decide)).mpr
    (by decide)

/-! ## Lemmas: store -/

theorem storeGet_mem (st : Store) (k : C4ID) (v : List Nat)
    (h : storeGet st k = some v) : (k, v) ∈ st := by
  induction st with
  | nil => simp [storeGet] at h
  | cons kv rest ih =>
    obtain ⟨k1, v1⟩ := kv
    by_cases hk : k1 = k
    · subst hk
      rw [storeGet, if_pos rfl] at h
      cases h
      simp
    · rw [storeGet, if_neg hk] at h
      simp [ih h]

theorem storePut_fst (st : Store) (d : List Nat) :
    (storePut st d).1 = identify d := by
  rw [storePut]
  cases storeGet st (identify d) <;> rfl

theorem storeGet_storePut (st : Store) (d : List Nat) (hw : StoreWF st) :
    storeGet (storePut st d).2 (identify d) = some d := by
  rw [storePut]
  cases h : storeGet st (identify d) with
  | some v =>
    have hmem := storeGet_mem st (identify d) v h
    have := hw (identify d, v) hmem
    rw [identify] at this
    injection this with hv
    subst hv
    exact h
  | none =>
    simp [storeGet]

/-! ## Lemmas: basename and dirname of simple names -/

theorem containsSlash_iff (l : Str) : containsSlash l = true ↔ '/' ∈ l := by
  induction l with
  | nil => simp [containsSlash]
  | cons c rest ih =>
    by_cases hc : c = '/'
    · subst hc
      simp [containsSlash]
    · simp [containsSlash, hc, ih, Ne.symm hc]

theorem containsSlash_reverse (l : Str) :
    containsSlash l.reverse = containsSlash l := by
  cases h : containsSlash l with
  | false =>
    rw [containsSlash_eq_false_iff] at h
    exact (containsSlash_eq_false_iff _).mpr (by simpa using h)
  | true =>
    rw [containsSlash_iff] at h
    exact (containsSlash_iff _).mpr (by simpa using h)

theorem revDropSlashes_no_slash (l : Str) (h : containsSlash l = false) :
    revDropSlashes l = l := by
  cases l with
  | nil => rfl
  | cons c rest =>
    rw [containsSlash_eq_false_iff] at h
    have hc : c ≠ '/' := fun hc => h (by simp [hc])
    rw [revDropSlashes, if_neg hc]

theorem revTakeNonSlash_no_slash (l : Str) (h : containsSlash l = false) :
    revTakeNonSlash l = l := by
  induction l with
  | nil => rfl
  | cons c rest ih =>
    rw [containsSlash_eq_false_iff] at h
    have hc : c ≠ '/' := fun hc => h (by simp [hc])
    rw [revTakeNonSlash, if_neg hc, ih]
    rw [containsSlash_eq_false_iff]
    intro hm
    exact h (by simp [hm])

theorem revDropToSlash_no_slash (l : Str) (h : containsSlash l = false) :
    revDropToSlash l = [] := by
  induction l with
  | nil => rfl
  | cons c rest ih =>
    rw [containsSlash_eq_false_iff] at h
    have hc : c ≠ '/' := fun hc => h (by simp [hc])
    rw [revDropToSlash, if_neg hc, ih]
    rw [containsSlash_eq_false_iff]
    intro hm
    exact h (by simp [hm])

theorem baseName_simple (p : Str) (hp : SimpleName p) : baseName p = p := by
  have hrev : containsSlash p.reverse = false := by
    rw [containsSlash_reverse]
    exact hp.2.1
  rw [baseName, if_neg hp.1]
  simp only [revDropSlashes_no_slash p.reverse hrev, List.reverse_reverse,
    revTakeNonSlash_no_slash p.reverse hrev]
  rw [if_neg (by simpa using hp.1)]

theorem dirName_simple (p : Str) (hp : SimpleName p) : dirName p = str "." := by
  have hrev : containsSlash p.reverse = false := by
    rw [containsSlash_reverse]
    exact hp.2.1
  rw [dirName, revDropToSlash_no_slash p.reverse hrev]
  rfl

/-! ## Lemmas: lookups and single-component resolution -/

theorem lstatEntry_layerFound (fs : FS) (p : Str) (e : Entry) (hp : CleanPath p)
    (hfind : idxFind? fs.layerIndex p = some e) (hsize : e.size ≠ -1) :
    lstatEntry fs p = .ok e := by
  rw [lstatEntry]
  simp only [normPath_of_cleanPath p hp]
  rw [if_neg hp.1, hfind]
  simp [hsize]

theorem lstatEntry_notFound (fs : FS) (p : Str) (hp : CleanPath p)
    (hl : idxFind? fs.layerIndex p = none)
    (hb : idxFind? fs.baseIndex p = none) :
    lstatEntry fs p = .err ⟨"lstat", p, ErrKind.notExist⟩ := by
  rw [lstatEntry]
  simp only [normPath_of_cleanPath p hp]
  rw [if_neg hp.1, hl, hb]

theorem walkComps_single_err (fs : FS) (p : Str) (hp : SimpleName p) (e : PErr)
    (hl : lstatEntry fs p = .err e) :
    walkComps fs [p] [] = .err e := by
  have hne : ¬ (p = [] ∨ p = str ".") := by
    push_neg
    exact ⟨hp.1, hp.2.2.1⟩
  simp [walkComps, hne, hl]

theorem walkComps_single_final (fs : FS) (p : Str) (hp : SimpleName p)
    (entry : Entry) (hl : lstatEntry fs p = .ok entry)
    (hs : entry.mode.symlink = false) :
    walkComps fs [p] [] = .ok (.final p) := by
  have hne : ¬ (p = [] ∨ p = str ".") := by
    push_neg
    exact ⟨hp.1, hp.2.2.1⟩
  simp [walkComps, hne, hl, hs]

theorem walkComps_single_redirect (fs : FS) (p : Str) (hp : SimpleName p)
    (entry : Entry) (hl : lstatEntry fs p = .ok entry)
    (hs : entry.mode.symlink = true) :
    walkComps fs [p] [] = .ok (.redirect entry.target) := by
  have hne : ¬ (p = [] ∨ p = str ".") := by
    push_neg
    exact ⟨hp.1, hp.2.2.1⟩
  have hd : dirName p = str "." := dirName_simple p hp
  simp [walkComps, hne, hl, hs, hd]

theorem resolveSymlink_simple_final (fs : FS) (p : Str) (hp : SimpleName p)
    (fuel : Nat) (e : Entry) (hl : lstatEntry fs p = .ok e)
    (hs : e.mode.symlink = false) :
    resolveSymlink fs p (fuel + 1) = .ok e := by
  rw [resolveSymlink]
  simp only [clean_simple p hp, splitOnSlash_no_slash p hp.2.1]
  rw [walkComps_single_final fs p hp e hl hs]
  exact hl

theorem resolveSymlink_simple_step (fs : FS) (p : Str) (hp : SimpleName p)
    (fuel : Nat) (e : Entry) (hl : lstatEntry fs p = .ok e)
    (hs : e.mode.symlink = true) :
    resolveSymlink fs p (fuel + 1) = resolveSymlink fs e.target fuel := by
  rw [resolveSymlink]
  simp only [clean_simple p hp, splitOnSlash_no_slash p hp.2.1]
  rw [walkComps_single_redirect fs p hp e hl hs]

theorem resolveSymlink_simple_err (fs : FS) (p : Str) (hp : SimpleName p)
    (fuel : Nat) (e : PErr) (hl : lstatEntry fs p = .err e) :
    resolveSymlink fs p (fuel + 1) = .err e := by
  rw [resolveSymlink]
  simp only [clean_simple p hp, splitOnSlash_no_slash p hp.2.1]
  rw [walkComps_single_err fs p hp e hl]

/-! ## C2: write/read round-trip -/

/-- C2 is false as stated on the code: on the empty filesystem,
`WriteFile("d/f", [1])` succeeds but `ReadFile("d/f")` (and `Stat`) fail
NotExist, because path resolution lstats the missing intermediate component
`d`. -/
theorem c2_roundtrip_counterexample :
    WriteFile fs0 (str "d/f") [1] (filePerm 0o644) 1 = .ok fsOrphan ∧
    ReadFile fsOrphan (str "d/f") = .err ⟨"lstat", str "d", ErrKind.notExist⟩ ∧
    Stat fsOrphan (str "d/f") = .err ⟨"lstat", str "d", ErrKind.notExist⟩ := by
  decide

/-- C2 (amended): for every state with a well-formed store, every
single-component path `p` (no separator; nested paths require their
intermediate components to exist, see the counterexample), every payload `d`
(including empty) and every plain permission mode, `WriteFile(p, d, perm)`
succeeds and a subsequent `ReadFile(p)` returns exactly `d`, while `Stat(p)`
reports size `len(d)`. -/
theorem c2_write_read_roundtrip (fs : FS) (p : Str) (d : List Nat) (perm : Mode)
    (now : Nat) (fs' : FS)
    (hw : StoreWF fs.store) (hp : SimpleName p)
    (hdir : perm.dir = false) (hsym : perm.symlink = false)
    (h : WriteFile fs p d perm now = .ok fs') :
    ReadFile fs' p = .ok d ∧
    Stat fs' p = .ok ⟨p, (d.length : Int), perm, now, false⟩ := by
  rw [WriteFile] at h
  injection h with h
  subst h
  set eW : Entry := ⟨perm, now, (d.length : Int), clean p, (storePut fs.store d).1, []⟩
    with heW
  set fsX : FS := updateEntryInLayer { fs with store := (storePut fs.store d).2 } eW
    with hfsX
  have hname : eW.name = p := clean_simple p hp
  have hfind : idxFind? fsX.layerIndex p = some eW := by
    rw [hfsX, idxFind?_updateEntryInLayer, hname, if_pos rfl]
  have hsize : eW.size ≠ -1 := by
    rw [heW]
    intro hc
    simp only at hc
    omega
  have hlstat : lstatEntry fsX p = .ok eW :=
    lstatEntry_layerFound fsX p eW (cleanPath_of_simple p hp) hfind hsize
  have hres : resolveSymlink fsX p 40 = .ok eW := by
    have h40 : (40 : Nat) = 39 + 1 := rfl
    rw [h40]
    exact resolveSymlink_simple_final fsX p hp 39 eW hlstat hsym
  have hdirW : eW.mode.dir = false := hdir
  have hget : storeGet fsX.store eW.c4id = some d := by
    have hid : eW.c4id = identify d := storePut_fst fs.store d
    have hst : fsX.store = (storePut fs.store d).2 := rfl
    rw [hst, hid]
    exact storeGet_storePut fs.store d hw
  constructor
  · rw [ReadFile, Open, hres]
    simp only [hdirW, hdir, Bool.false_eq_true, if_false, openFile, hget]
  · rw [Stat, hres]
    simp [mkInfo, clean_simple p hp, baseName_simple p hp, hdir]

/-- Witness: the amended C2 theorem applied to writing `[7, 8]` at `a`. -/
theorem c2_write_read_roundtrip_witness :
    ReadFile fsW (str "a") = .ok [7, 8] ∧
    Stat fsW (str "a") = .ok ⟨str "a", (2 : Int), filePerm 0o644, 3, false⟩ :=
  c2_write_read_roundtrip fs0 (str "a") [7, 8] (filePerm 0o644) 3 fsW
    (by decide) (by decide) rfl rfl (by decide)

/-! ## Lemmas: string prefixes and composite paths -/

theorem isPre_iff_exists (a : Str) : ∀ b : Str, isPre a b = true ↔ ∃ t, b = a ++ t := by
  induction a with
  | nil =>
    intro b
    simp [isPre]
  | cons x xs ih =>
    intro b
    cases b with
    | nil =>
      simp [isPre]
    | cons y ys =>
      rw [isPre]
      by_cases hxy : x = y
      · subst hxy
        rw [if_pos rfl, ih ys]
        constructor
        · rintro ⟨t, rfl⟩
          exact ⟨t, rfl⟩
        · rintro ⟨t, ht⟩
          injection ht with h1 h2
          exact ⟨t, h2⟩
      · rw [if_neg hxy]
        constructor
        · intro hc
          cases hc
        · rintro ⟨t, ht⟩
          injection ht with h1 h2
          exact absurd h1.symm hxy

theorem isPre_append (a t : Str) : isPre a (a ++ t) = true :=
  (isPre_iff_exists a (a ++ t)).mpr ⟨t, rfl⟩

theorem revDropSlashes_cons (x : Char) (t : Str) (hx : x ≠ '/') :
    revDropSlashes (x :: t) = x :: t := by
  rw [revDropSlashes, if_neg hx]

theorem revTakeNonSlash_append (u v : Str) (h : containsSlash u = false) :
    revTakeNonSlash (u ++ '/' :: v) = u := by
  induction u with
  | nil => simp [revTakeNonSlash]
  | cons c rest ih =>
    rw [containsSlash_eq_false_iff] at h
    have hc : c ≠ '/' := fun hc => h (by simp [hc])
    rw [List.cons_append, revTakeNonSlash, if_neg hc, ih]
    rw [containsSlash_eq_false_iff]
    intro hm
    exact h (by simp [hm])

theorem revDropToSlash_append (u v : Str) (h : containsSlash u = false) :
    revDropToSlash (u ++ '/' :: v) = '/' :: v := by
  induction u with
  | nil => simp [revDropToSlash]
  | cons c rest ih =>
    rw [containsSlash_eq_false_iff] at h
    have hc : c ≠ '/' := fun hc => h (by simp [hc])
    rw [List.cons_append, revDropToSlash, if_neg hc, ih]
    rw [containsSlash_eq_false_iff]
    intro hm
    exact h (by simp [hm])

theorem clean_append_slash_end (a : Str) (ha : CleanPath a) :
    clean (a ++ ['/']) = a := by
  have hne : a ++ ['/'] ≠ [] := by simp
  have hsplit : splitOnSlash (a ++ ['/']) = splitOnSlash a ++ [[]] := by
    have : a ++ ['/'] = a ++ '/' :: ([] : Str) := rfl
    rw [this, splitOnSlash_append_slash]
    rfl
  have hroot : isPre (str "/") (a ++ ['/']) = false := by
    obtain ⟨ch, rest, hp, hch⟩ := cleanPath_head a ha
    subst hp
    simp only [str, List.cons_append, isPre]
    simp [Ne.symm hch]
  rw [clean, if_neg hne]
  simp only [hroot, hsplit]
  have hkeep : keepComp (splitOnSlash a ++ [[]]) = splitOnSlash a := by
    have h1 : ∀ l : List Str, (∀ c ∈ l, SimpleName c) → keepComp (l ++ [[]]) = l := by
      intro l hl
      induction l with
      | nil => simp [keepComp]
      | cons c rest ih =>
        have hc := hl c (by simp)
        rw [List.cons_append, keepComp,
          if_neg (by simp [hc.1, hc.2.2.1]), ih (fun x hx => hl x (by simp [hx]))]
    exact h1 (splitOnSlash a) ha.2
  rw [hkeep, cleanStack_no_dotdot _ _ _ (fun c hc => (ha.2 c hc).2.2.2),
    List.nil_append, intercalateSlash_splitOnSlash]
  simp only [Bool.false_eq_true, if_false]
  rw [if_neg ha.1]

theorem baseName_append (a c : Str) (ha : CleanPath a) (hc : SimpleName c) :
    baseName (a ++ '/' :: c) = c := by
  have hne : a ++ '/' :: c ≠ [] := by simp
  have hrevsf : containsSlash c.reverse = false := by
    rw [containsSlash_reverse]
    exact hc.2.1
  have hrev : (a ++ '/' :: c).reverse = c.reverse ++ '/' :: a.reverse := by simp
  have hdrop : revDropSlashes (c.reverse ++ '/' :: a.reverse) =
      c.reverse ++ '/' :: a.reverse := by
    cases hcr : c.reverse with
    | nil => exact absurd (by simpa using hcr) hc.1
    | cons x t =>
      have hx : x ≠ '/' := by
        rw [containsSlash_eq_false_iff] at hrevsf
        intro hxx
        exact hrevsf (by rw [hcr, hxx]; simp)
      rw [List.cons_append]
      exact revDropSlashes_cons x (t ++ '/' :: a.reverse) hx
  simp only [baseName]
  rw [if_neg hne, hrev, hdrop, List.reverse_reverse,
    revTakeNonSlash_append c.reverse a.reverse hrevsf, List.reverse_reverse,
    if_neg hc.1]

theorem dirName_append (a c : Str) (ha : CleanPath a) (hc : SimpleName c) :
    dirName (a ++ '/' :: c) = a := by
  have hrevsf : containsSlash c.reverse = false := by
    rw [containsSlash_reverse]
    exact hc.2.1
  have hrev : (a ++ '/' :: c).reverse = c.reverse ++ '/' :: a.reverse := by
    simp
  rw [dirName, hrev, revDropToSlash_append c.reverse a.reverse hrevsf]
  have : ('/' :: a.reverse).reverse = a ++ ['/'] := by simp
  rw [this, clean_append_slash_end a ha]

theorem intercalateSlash_concat (l : List Str) (c : Str) (hl : l ≠ []) :
    intercalateSlash (l ++ [c]) = intercalateSlash l ++ '/' :: c := by
  induction l with
  | nil => exact absurd rfl hl
  | cons x rest ih =>
    cases rest with
    | nil => simp [intercalateSlash]
    | cons y t =>
      have h3 : intercalateSlash (x :: ((y :: t) ++ [c])) =
          x ++ '/' :: intercalateSlash ((y :: t) ++ [c]) := rfl
      have h4 : intercalateSlash (x :: y :: t) = x ++ '/' :: intercalateSlash (y :: t) := rfl
      rw [List.cons_append, h3, ih (by simp), h4]
      simp

theorem splitOnSlash_intercalate (l : List Str) (hne : l ≠ [])
    (h : ∀ c ∈ l, containsSlash c = false) :
    splitOnSlash (intercalateSlash l) = l := by
  induction l with
  | nil => exact absurd rfl hne
  | cons c rest ih =>
    cases rest with
    | nil =>
      have : intercalateSlash [c] = c := rfl
      rw [this, splitOnSlash_no_slash c (h c (by simp))]
    | cons y t =>
      have : intercalateSlash (c :: y :: t) = c ++ '/' :: intercalateSlash (y :: t) := rfl
      rw [this, splitOnSlash_append_slash, splitOnSlash_no_slash c (h c (by simp)),
        ih (by simp) (fun x hx => h x (by simp [hx]))]
      rfl

theorem cleanPath_decomp (p : Str) (hp : CleanPath p) :
    SimpleName p ∨ ∃ a c, CleanPath a ∧ SimpleName c ∧ p = a ++ '/' :: c := by
  have hall := hp.2
  have hptr := intercalateSlash_splitOnSlash p
  rcases List.eq_nil_or_concat (splitOnSlash p) with hcs | ⟨init, last, hcs⟩
  · exact absurd hcs (splitOnSlash_ne_nil p)
  · rw [List.concat_eq_append] at hcs
    cases init with
    | nil =>
      left
      rw [hcs] at hptr hall
      simp only [List.nil_append] at hptr hall
      have h1 : intercalateSlash [last] = last := rfl
      rw [h1] at hptr
      rw [← hptr]
      exact hall last (by simp)
    | cons i0 it =>
      right
      rw [hcs] at hptr hall
      have hinit_ne : (i0 :: it : List Str) ≠ [] := by simp
      rw [intercalateSlash_concat _ _ hinit_ne] at hptr
      have hmem : ∀ x ∈ (i0 :: it : List Str), x ∈ i0 :: it ++ [last] := by
        intro x hx
        rcases List.mem_cons.mp hx with rfl | hx
        · simp
        · simp [hx]
      refine ⟨intercalateSlash (i0 :: it), last, ?_, ?_, hptr.symm⟩
      · constructor
        · have hi0 : SimpleName i0 := hall i0 (by simp)
          cases it with
          | nil =>
            have h1 : intercalateSlash [i0] = i0 := rfl
            rw [h1]
            exact hi0.1
          | cons y t =>
            have h2 : intercalateSlash (i0 :: y :: t) =
                i0 ++ '/' :: intercalateSlash (y :: t) := rfl
            rw [h2]
            cases hzz : i0 with
            | nil => exact absurd hzz hi0.1
            | cons z zs => simp
        · rw [splitOnSlash_intercalate (i0 :: it) hinit_ne
            (fun c hc => (hall c (hmem c hc)).2.1)]
          intro c hc
          exact hall c (hmem c hc)
      · exact hall last (by simp)

/-! ## Lemmas: isDirectChild on normalized paths -/

theorem cleanPath_no_slash_simple (n : Str) (hn : CleanPath n)
    (hs : containsSlash n = false) : SimpleName n := by
  have := hn.2 n (by rw [splitOnSlash_no_slash n hs]; simp)
  exact this

theorem isDirectChild_root (n : Str) (hn : CleanPath n) :
    isDirectChild [] n = true ↔ containsSlash n = false := by
  rw [isDirectChild]
  simp only [clean_of_cleanPath n hn]
  have h1 : clean [] = str "." := rfl
  rw [h1]
  rw [if_pos (Or.inl rfl), if_pos rfl]
  constructor
  · intro h
    simpa using h
  · intro h
    simp [h]

theorem isDirectChild_sub (dirn n : Str) (hd : CleanPath dirn) (hn : CleanPath n) :
    isDirectChild dirn n = true ↔ ∃ c, SimpleName c ∧ n = dirn ++ '/' :: c := by
  have hnd : ¬ (dirn = str "." ∨ dirn = str "/") := by
    push_neg
    exact ⟨cleanPath_ne_dot dirn hd, cleanPath_ne_slash dirn hd⟩
  rw [isDirectChild]
  simp only [clean_of_cleanPath n hn, clean_of_cleanPath dirn hd]
  rw [if_neg hnd, if_neg hd.1]
  by_cases hpre : isPre (dirn ++ ['/']) n = true
  · have hnn : ¬ ¬ (isPre (dirn ++ ['/']) n = true) := fun hcc => hcc hpre
    rw [if_neg hnn]
    obtain ⟨t, ht⟩ := (isPre_iff_exists _ _).mp hpre
    have htrim : trimPre n (dirn ++ ['/']) = t := by
      rw [trimPre, if_pos hpre, ht, List.drop_left]
    rw [htrim, decide_eq_true_eq]
    constructor
    · intro hnos
      have hnoslash : containsSlash t = false := by
        cases hcc : containsSlash t
        · rfl
        · exact absurd hcc hnos
      refine ⟨t, ?_, by rw [ht]; simp⟩
      have htmem : t ∈ splitOnSlash n := by
        rw [ht]
        have h5 : dirn ++ ['/'] ++ t = dirn ++ '/' :: t := by simp
        rw [h5, splitOnSlash_append_slash, splitOnSlash_no_slash t hnoslash]
        simp
      exact hn.2 t htmem
    · rintro ⟨c, hc, hcn⟩
      have htc : t = c := by
        rw [hcn] at ht
        have h6 : dirn ++ '/' :: c = dirn ++ ['/'] ++ c := by simp
        rw [h6] at ht
        exact (List.append_cancel_left ht).symm
      subst htc
      rw [hc.2.1]
      simp
  · constructor
    · intro h
      rw [if_pos hpre] at h
      cases h
    · rintro ⟨c, hc, hcn⟩
      exfalso
      apply hpre
      rw [hcn]
      have h2 : dirn ++ '/' :: c = dirn ++ ['/'] ++ c := by simp
      rw [h2]
      exact isPre_append _ _

theorem directChild_name_eq (d n1 n2 : Str) (h1 : CleanPath n1) (h2 : CleanPath n2)
    (hc1 : isDirectChild d n1 = true) (hc2 : isDirectChild d n2 = true)
    (hb : baseName n1 = baseName n2)
    (hd : d = [] ∨ CleanPath d) : n1 = n2 := by
  rcases hd with rfl | hd
  · have hs1 := (isDirectChild_root n1 h1).mp hc1
    have hs2 := (isDirectChild_root n2 h2).mp hc2
    have hsn1 := cleanPath_no_slash_simple n1 h1 hs1
    have hsn2 := cleanPath_no_slash_simple n2 h2 hs2
    rw [baseName_simple n1 hsn1, baseName_simple n2 hsn2] at hb
    exact hb
  · obtain ⟨c1, hc1s, rfl⟩ := (isDirectChild_sub d n1 hd h1).mp hc1
    obtain ⟨c2, hc2s, rfl⟩ := (isDirectChild_sub d n2 hd h2).mp hc2
    rw [baseName_append d c1 hd hc1s, baseName_append d c2 hd hc2s] at hb
    rw [hb]

/-! ## Lemmas: directory listing passes -/

theorem mkInfo_name (e : Entry) : (mkInfo e).name = baseName e.name := rfl

theorem layerPass_out_char (dir : Str) :
    ∀ (entries : List Entry) (seen tombs : List Str),
      ∀ de ∈ (layerPass dir entries seen tombs).2.2,
        ∃ e ∈ entries, e.size ≠ -1 ∧ isDirectChild dir e.name = true ∧ de = mkInfo e := by
  intro entries
  induction entries with
  | nil =>
    intro seen tombs de hde
    simp [layerPass] at hde
  | cons e rest ih =>
    intro seen tombs de hde
    rw [layerPass] at hde
    by_cases hchild : isDirectChild dir e.name = true
    · rw [if_pos hchild] at hde
      by_cases hseen : baseName e.name ∈ seen
      · rw [if_pos hseen] at hde
        obtain ⟨f, hf, hp⟩ := ih _ _ de hde
        exact ⟨f, by simp [hf], hp⟩
      · rw [if_neg hseen] at hde
        by_cases htomb : e.size = -1
        · rw [if_pos htomb] at hde
          obtain ⟨f, hf, hp⟩ := ih _ _ de hde
          exact ⟨f, by simp [hf], hp⟩
        · rw [if_neg htomb] at hde
          dsimp only at hde
          rcases List.mem_cons.mp hde with rfl | hde
          · exact ⟨e, by simp, htomb, hchild, rfl⟩
          · obtain ⟨f, hf, hp⟩ := ih _ _ de hde
            exact ⟨f, by simp [hf], hp⟩
    · rw [if_neg hchild] at hde
      obtain ⟨f, hf, hp⟩ := ih _ _ de hde
      exact ⟨f, by simp [hf], hp⟩

theorem layerPass_tombs_mono (dir : Str) :
    ∀ (entries : List Entry) (seen tombs : List Str),
      ∀ x ∈ tombs, x ∈ (layerPass dir entries seen tombs).2.1 := by
  intro entries
  induction entries with
  | nil =>
    intro seen tombs x hx
    simpa [layerPass] using hx
  | cons e rest ih =>
    intro seen tombs x hx
    rw [layerPass]
    by_cases hchild : isDirectChild dir e.name = true
    · rw [if_pos hchild]
      by_cases hseen : baseName e.name ∈ seen
      · rw [if_pos hseen]
        exact ih _ _ x hx
      · rw [if_neg hseen]
        by_cases htomb : e.size = -1
        · rw [if_pos htomb]
          exact ih _ _ x (by simp [hx])
        · rw [if_neg htomb]
          dsimp only
          exact ih _ _ x hx
    · rw [if_neg hchild]
      exact ih _ _ x hx

theorem layerPass_seen_sub (dir : Str) :
    ∀ (entries : List Entry) (seen tombs : List Str),
      ∀ x ∈ (layerPass dir entries seen tombs).1,
        x ∈ seen ∨ ∃ e ∈ entries, isDirectChild dir e.name = true ∧ x = baseName e.name := by
  intro entries
  induction entries with
  | nil =>
    intro seen tombs x hx
    simp only [layerPass] at hx
    exact Or.inl hx
  | cons e rest ih =>
    intro seen tombs x hx
    rw [layerPass] at hx
    by_cases hchild : isDirectChild dir e.name = true
    · rw [if_pos hchild] at hx
      by_cases hseen : baseName e.name ∈ seen
      · rw [if_pos hseen] at hx
        rcases ih _ _ x hx with h | ⟨f, hf, hp⟩
        · exact Or.inl h
        · exact Or.inr ⟨f, by simp [hf], hp⟩
      · rw [if_neg hseen] at hx
        by_cases htomb : e.size = -1
        · rw [if_pos htomb] at hx
          rcases ih _ _ x hx with h | ⟨f, hf, hp⟩
          · rcases List.mem_cons.mp h with rfl | h
            · exact Or.inr ⟨e, by simp, hchild, rfl⟩
            · exact Or.inl h
          · exact Or.inr ⟨f, by simp [hf], hp⟩
        · rw [if_neg htomb] at hx
          dsimp only at hx
          rcases ih _ _ x hx with h | ⟨f, hf, hp⟩
          · rcases List.mem_cons.mp h with rfl | h
            · exact Or.inr ⟨e, by simp, hchild, rfl⟩
            · exact Or.inl h
          · exact Or.inr ⟨f, by simp [hf], hp⟩
    · rw [if_neg hchild] at hx
      rcases ih _ _ x hx with h | ⟨f, hf, hp⟩
      · exact Or.inl h
      · exact Or.inr ⟨f, by simp [hf], hp⟩

theorem layerPass_tombs_sub (dir : Str) :
    ∀ (entries : List Entry) (seen tombs : List Str),
      ∀ x ∈ (layerPass dir entries seen tombs).2.1,
        x ∈ tombs ∨ ∃ e ∈ entries, isDirectChild dir e.name = true ∧ x = baseName e.name := by
  intro entries
  induction entries with
  | nil =>
    intro seen tombs x hx
    simp only [layerPass] at hx
    exact Or.inl hx
  | cons e rest ih =>
    intro seen tombs x hx
    rw [layerPass] at hx
    by_cases hchild : isDirectChild dir e.name = true
    · rw [if_pos hchild] at hx
      by_cases hseen : baseName e.name ∈ seen
      · rw [if_pos hseen] at hx
        rcases ih _ _ x hx with h | ⟨f, hf, hp⟩
        · exact Or.inl h
        · exact Or.inr ⟨f, by simp [hf], hp⟩
      · rw [if_neg hseen] at hx
        by_cases htomb : e.size = -1
        · rw [if_pos htomb] at hx
          rcases ih _ _ x hx with h | ⟨f, hf, hp⟩
          · rcases List.mem_cons.mp h with rfl | h
            · exact Or.inr ⟨e, by simp, hchild, rfl⟩
            · exact Or.inl h
          · exact Or.inr ⟨f, by simp [hf], hp⟩
        · rw [if_neg htomb] at hx
          dsimp only at hx
          rcases ih _ _ x hx with h | ⟨f, hf, hp⟩
          · exact Or.inl h
          · exact Or.inr ⟨f, by simp [hf], hp⟩
    · rw [if_neg hchild] at hx
      rcases ih _ _ x hx with h | ⟨f, hf, hp⟩
      · exact Or.inl h
      · exact Or.inr ⟨f, by simp [hf], hp⟩

theorem layerPass_tombs_mem (dir : Str) :
    ∀ (entries : List Entry) (seen tombs : List Str) (b : Str),
      b ∉ seen →
      (∃ e ∈ entries, isDirectChild dir e.name = true ∧ baseName e.name = b ∧ e.size = -1) →
      (∀ e ∈ entries, isDirectChild dir e.name = true → baseName e.name = b → e.size = -1) →
      b ∈ (layerPass dir entries seen tombs).2.1 := by
  intro entries
  induction entries with
  | nil =>
    intro seen tombs b hseen hex hall
    obtain ⟨e, he, _⟩ := hex
    simp at he
  | cons e rest ih =>
    intro seen tombs b hseen hex hall
    rw [layerPass]
    by_cases hchild : isDirectChild dir e.name = true
    · rw [if_pos hchild]
      by_cases hbb : baseName e.name = b
      · have htombe : e.size = -1 := hall e (by simp) hchild hbb
        rw [hbb, if_neg hseen, if_pos htombe]
        exact layerPass_tombs_mono dir rest (b :: seen) (b :: tombs) b (by simp)
      · by_cases hseenb : baseName e.name ∈ seen
        · rw [if_pos hseenb]
          refine ih _ _ b hseen ?_ (fun f hf => hall f (by simp [hf]) )
          obtain ⟨f, hf, hp⟩ := hex
          rcases List.mem_cons.mp hf with rfl | hf
          · exact absurd hp.2.1 hbb
          · exact ⟨f, hf, hp⟩
        · rw [if_neg hseenb]
          have hex' : ∃ f ∈ rest, isDirectChild dir f.name = true ∧
              baseName f.name = b ∧ f.size = -1 := by
            obtain ⟨f, hf, hp⟩ := hex
            rcases List.mem_cons.mp hf with rfl | hf
            · exact absurd hp.2.1 hbb
            · exact ⟨f, hf, hp⟩
          have hseen' : b ∉ baseName e.name :: seen := by
            intro hc
            rcases List.mem_cons.mp hc with rfl | hc
            · exact hbb rfl
            · exact hseen hc
          by_cases htomb : e.size = -1
          · rw [if_pos htomb]
            exact ih _ _ b hseen' hex' (fun f hf => hall f (by simp [hf]))
          · rw [if_neg htomb]
            dsimp only
            exact ih _ _ b hseen' hex' (fun f hf => hall f (by simp [hf]))
    · rw [if_neg hchild]
      refine ih _ _ b hseen ?_ (fun f hf => hall f (by simp [hf]))
      obtain ⟨f, hf, hp⟩ := hex
      rcases List.mem_cons.mp hf with rfl | hf
      · exact absurd hp.1 hchild
      · exact ⟨f, hf, hp⟩

theorem layerPass_out_mem (dir : Str) :
    ∀ (entries : List Entry) (seen tombs : List Str) (b : Str),
      b ∉ seen →
      (∃ e ∈ entries, isDirectChild dir e.name = true ∧ baseName e.name = b ∧ e.size ≠ -1) →
      (∀ e ∈ entries, isDirectChild dir e.name = true → baseName e.name = b → e.size ≠ -1) →
      ∃ de ∈ (layerPass dir entries seen tombs).2.2, de.name = b := by
  intro entries
  induction entries with
  | nil =>
    intro seen tombs b hseen hex hall
    obtain ⟨e, he, _⟩ := hex
    simp at he
  | cons e rest ih =>
    intro seen tombs b hseen hex hall
    rw [layerPass]
    by_cases hchild : isDirectChild dir e.name = true
    · rw [if_pos hchild]
      by_cases hbb : baseName e.name = b
      · have hlive : e.size ≠ -1 := hall e (by simp) hchild hbb
        rw [hbb, if_neg hseen, if_neg hlive]
        dsimp only
        exact ⟨mkInfo e, by simp, by rw [mkInfo_name, hbb]⟩
      · have hex' : ∃ f ∈ rest, isDirectChild dir f.name = true ∧
            baseName f.name = b ∧ f.size ≠ -1 := by
          obtain ⟨f, hf, hp⟩ := hex
          rcases List.mem_cons.mp hf with rfl | hf
          · exact absurd hp.2.1 hbb
          · exact ⟨f, hf, hp⟩
        by_cases hseenb : baseName e.name ∈ seen
        · rw [if_pos hseenb]
          exact ih _ _ b hseen hex' (fun f hf => hall f (by simp [hf]))
        · rw [if_neg hseenb]
          have hseen' : b ∉ baseName e.name :: seen := by
            intro hc
            rcases List.mem_cons.mp hc with rfl | hc
            · exact hbb rfl
            · exact hseen hc
          by_cases htomb : e.size = -1
          · rw [if_pos htomb]
            exact ih _ _ b hseen' hex' (fun f hf => hall f (by simp [hf]))
          · rw [if_neg htomb]
            dsimp only
            obtain ⟨de, hde, hdb⟩ :=
              ih (baseName e.name :: seen) tombs b hseen' hex'
                (fun f hf => hall f (by simp [hf]))
            exact ⟨de, by simp [hde], hdb⟩
    · rw [if_neg hchild]
      refine ih _ _ b hseen ?_ (fun f hf => hall f (by simp [hf]))
      obtain ⟨f, hf, hp⟩ := hex
      rcases List.mem_cons.mp hf with rfl | hf
      · exact absurd hp.1 hchild
      · exact ⟨f, hf, hp⟩

theorem basePass_out_char (dir : Str) :
    ∀ (entries : List Entry) (seen tombs : List Str),
      ∀ de ∈ basePass dir entries seen tombs,
        ∃ e ∈ entries, isDirectChild dir e.name = true ∧
          baseName e.name ∉ tombs ∧ de = mkInfo e := by
  intro entries
  induction entries with
  | nil =>
    intro seen tombs de hde
    simp [basePass] at hde
  | cons e rest ih =>
    intro seen tombs de hde
    rw [basePass] at hde
    by_cases hchild : isDirectChild dir e.name = true
    · rw [if_pos hchild] at hde
      by_cases hcond : baseName e.name ∉ seen ∧ baseName e.name ∉ tombs
      · rw [if_pos hcond] at hde
        rcases List.mem_cons.mp hde with rfl | hde
        · exact ⟨e, by simp, hchild, hcond.2, rfl⟩
        · obtain ⟨f, hf, hp⟩ := ih _ _ de hde
          exact ⟨f, by simp [hf], hp⟩
      · rw [if_neg hcond] at hde
        obtain ⟨f, hf, hp⟩ := ih _ _ de hde
        exact ⟨f, by simp [hf], hp⟩
    · rw [if_neg hchild] at hde
      obtain ⟨f, hf, hp⟩ := ih _ _ de hde
      exact ⟨f, by simp [hf], hp⟩

theorem basePass_out_mem (dir : Str) :
    ∀ (entries : List Entry) (seen tombs : List Str) (b : Str),
      b ∉ seen → b ∉ tombs →
      (∃ e ∈ entries, isDirectChild dir e.name = true ∧ baseName e.name = b) →
      ∃ de ∈ basePass dir entries seen tombs, de.name = b := by
  intro entries
  induction entries with
  | nil =>
    intro seen tombs b hseen htombs hex
    obtain ⟨e, he, _⟩ := hex
    simp at he
  | cons e rest ih =>
    intro seen tombs b hseen htombs hex
    rw [basePass]
    by_cases hchild : isDirectChild dir e.name = true
    · rw [if_pos hchild]
      by_cases hbb : baseName e.name = b
      · rw [if_pos (by rw [hbb]; exact ⟨hseen, htombs⟩)]
        exact ⟨mkInfo e, by simp, by rw [mkInfo_name, hbb]⟩
      · have hex' : ∃ f ∈ rest, isDirectChild dir f.name = true ∧ baseName f.name = b := by
          obtain ⟨f, hf, hp⟩ := hex
          rcases List.mem_cons.mp hf with rfl | hf
          · exact absurd hp.2 hbb
          · exact ⟨f, hf, hp⟩
        by_cases hcond : baseName e.name ∉ seen ∧ baseName e.name ∉ tombs
        · rw [if_pos hcond]
          have hseen' : b ∉ baseName e.name :: seen := by
            intro hc
            rcases List.mem_cons.mp hc with rfl | hc
            · exact hbb rfl
            · exact hseen hc
          obtain ⟨de, hde, hdb⟩ := ih _ _ b hseen' htombs hex'
          exact ⟨de, by simp [hde], hdb⟩
        · rw [if_neg hcond]
          exact ih _ _ b hseen htombs hex'
    · rw [if_neg hchild]
      refine ih _ _ b hseen htombs ?_
      obtain ⟨f, hf, hp⟩ := hex
      rcases List.mem_cons.mp hf with rfl | hf
      · exact absurd hp.1 hchild
      · exact ⟨f, hf, hp⟩

/-! ## C4: tombstone correctness -/

/-- C4: for every well-formed state, removing a normalized path that exists
only in the base manifest (no layer record) makes it invisible to `exists`,
removes its basename from the directory listing of its parent, and keeps it
out of a subsequent `Flatten`. -/
theorem c4_remove_tombstone (fs : FS) (p : Str) (now : Nat) (fs' : FS)
    (hw : WFS fs) (hp : CleanPath p)
    (hbase : ∃ e ∈ fs.base, e.name = p)
    (hlayer : ∀ e ∈ fs.layer, e.name ≠ p)
    (h : Remove fs p now = .ok fs') :
    existsPath fs' p = false ∧
    (∀ de ∈ ReadDir fs' (dirName p), de.name ≠ baseName p) ∧
    (∀ e ∈ Flatten fs', e.name ≠ p) := by
  have hlayerClean : ∀ e ∈ fs.layer, CleanPath e.name := hw.2.2.2.2.2.1
  have hbaseClean : ∀ e ∈ fs.base, CleanPath e.name := hw.2.2.2.2.1
  -- extract the post-state
  rw [Remove] at h
  rw [normPath_of_cleanPath p hp] at h
  rw [if_neg hp.1] at h
  have hfs' : fs' = updateEntryInLayer fs (tombstoneEntry p now) := by
    rcases hg : getEntry fs p with entry | er
    · rw [hg] at h
      dsimp only at h
      by_cases hcond : entry.mode.dir = true ∧ readDir fs p ≠ []
      · rw [if_pos hcond] at h
        cases h
      · rw [if_neg hcond] at h
        injection h with h
        exact h.symm
    · rw [hg] at h
      cases h
  subst hfs'
  have hnolayer : idxFind? fs.layerIndex p = none := by
    rw [layerFind_eq fs p hw, manifestGet?_eq_none_iff]
    exact hlayer
  have hlayer' : (updateEntryInLayer fs (tombstoneEntry p now)).layer =
      fs.layer ++ [tombstoneEntry p now] :=
    updateEntryInLayer_layer_of_absent fs (tombstoneEntry p now) hnolayer
  have hfindp : idxFind? (updateEntryInLayer fs (tombstoneEntry p now)).layerIndex p =
      some (tombstoneEntry p now) := by
    rw [idxFind?_updateEntryInLayer]
    simp [tombstoneEntry]
  have hget : getEntry (updateEntryInLayer fs (tombstoneEntry p now)) p =
      .err ⟨"stat", p, ErrKind.notExist⟩ := by
    rw [getEntry]
    simp only [normPath_of_cleanPath p hp]
    rw [if_neg hp.1, hfindp]
    rfl
  refine ⟨?_, ?_, ?_⟩
  · rw [existsPath, hget]
  · -- directory listing of the parent
    have main : ∀ d : Str, (d = [] ∨ CleanPath d) → isDirectChild d p = true →
        normPath (dirName p) = d →
        ∀ de ∈ ReadDir (updateEntryInLayer fs (tombstoneEntry p now)) (dirName p),
          de.name ≠ baseName p := by
      intro d hd_ok hchild hnorm de hde hnameq
      rw [ReadDir, readDir] at hde
      rw [hnorm] at hde
      rw [hlayer'] at hde
      have hbase_eq : (updateEntryInLayer fs (tombstoneEntry p now)).base = fs.base := rfl
      rw [hbase_eq] at hde
      -- identification: any clean direct child of d with basename (baseName p) is p
      have hident : ∀ n : Str, CleanPath n → isDirectChild d n = true →
          baseName n = baseName p → n = p := by
        intro n hn hcn hbn
        exact directChild_name_eq d n p hn hp hcn hchild hbn hd_ok
      rcases List.mem_append.mp hde with hmem | hmem
      · obtain ⟨e, he, hlive, hchil, hmk⟩ :=
          layerPass_out_char d _ [] [] de hmem
        have hbn : baseName e.name = baseName p := by
          rw [hmk, mkInfo_name] at hnameq
          exact hnameq
        rcases List.mem_append.mp he with hel | hel
        · have := hident e.name (hlayerClean e hel) hchil hbn
          exact hlayer e hel this
        · have heq : e = tombstoneEntry p now := by simpa using hel
          rw [heq] at hlive
          exact hlive rfl
      · obtain ⟨e, he, hchil, hnt, hmk⟩ :=
          basePass_out_char d _ _ _ de hmem
        have hbn : baseName e.name = baseName p := by
          rw [hmk, mkInfo_name] at hnameq
          exact hnameq
        apply hnt
        rw [hbn]
        apply layerPass_tombs_mem d (fs.layer ++ [tombstoneEntry p now]) [] []
          (baseName p) (by simp)
        · refine ⟨tombstoneEntry p now, by simp, ?_, rfl, rfl⟩
          exact hchild
        · intro f hf hcf hbf
          rcases List.mem_append.mp hf with hfl | hfl
          · have := hident f.name (hlayerClean f hfl) hcf hbf
            exact absurd this (hlayer f hfl)
          · have heq : f = tombstoneEntry p now := by simpa using hfl
            rw [heq]
            rfl
    rcases cleanPath_decomp p hp with hsimple | ⟨a, c, ha, hc, hpac⟩
    · refine main [] (Or.inl rfl) ((isDirectChild_root p hp).mpr hsimple.2.1) ?_
      rw [dirName_simple p hsimple]
      rfl
    · refine main a (Or.inr ha) ?_ ?_
      · rw [hpac]
        exact (isDirectChild_sub a (a ++ '/' :: c) ha (hpac ▸ hp)).mpr ⟨c, hc, rfl⟩
      · rw [hpac, dirName_append a c ha hc, normPath_of_cleanPath a ha]
  · -- Flatten exclusion
    intro e he hname
    rcases (mem_flatten_iff _ e).mp he with ⟨hm, ht⟩ | ⟨hm, hlive⟩
    · have := ht (tombstoneEntry p now) (by rw [hlayer']; simp) rfl
      rw [hname] at this
      exact this rfl
    · rw [hlayer'] at hm
      rcases List.mem_append.mp hm with hml | hml
      · exact hlayer e hml hname
      · have heq : e = tombstoneEntry p now := by simpa using hml
        rw [heq] at hlive
        exact hlive rfl

/-- Witness: C4 applied to the base-only file `a`. -/
theorem c4_remove_tombstone_witness :
    existsPath fsRm (str "a") = false ∧
    (∀ de ∈ ReadDir fsRm (dirName (str "a")), de.name ≠ baseName (str "a")) ∧
    (∀ e ∈ Flatten fsRm, e.name ≠ str "a") :=
  c4_remove_tombstone fsBaseOnly (str "a") 5 fsRm (by decide) (by decide)
    (by decide) (by decide) (by decide)

/-! ## C8: Remove error guards -/

theorem nodup_entry_eq (m : Manifest) (hd : (m.map Entry.name).Nodup)
    (e f : Entry) (he : e ∈ m) (hf : f ∈ m) (hn : e.name = f.name) : e = f := by
  have h1 := manifestGet?_eq_some_of_mem m e hd he
  have h2 := manifestGet?_eq_some_of_mem m f hd hf
  rw [hn] at h1
  rw [h1] at h2
  exact Option.some.inj h2

theorem getEntry_err_shape (fs : FS) (p : Str) (er : PErr)
    (h : getEntry fs p = .err er) : er = ⟨"stat", normPath p, ErrKind.notExist⟩ := by
  rw [getEntry] at h
  by_cases hroot : normPath p = []
  · rw [if_pos hroot] at h
    cases h
  · rw [if_neg hroot] at h
    cases hf : idxFind? fs.layerIndex (normPath p) with
    | some e =>
      rw [hf] at h
      dsimp only at h
      by_cases hs : e.size = -1
      · rw [if_pos hs] at h
        injection h with h
        exact h.symm
      · rw [if_neg hs] at h
        cases h
    | none =>
      rw [hf] at h
      dsimp only at h
      cases hb : idxFind? fs.baseIndex (normPath p) with
      | some e =>
        rw [hb] at h
        cases h
      | none =>
        rw [hb] at h
        injection h with h
        exact h.symm

/-- C8: `Remove` fails with DirectoryNotEmpty on a directory with at least one
live child in the composed view (a live layer child, or a base child not
shadowed by any layer record), producing no new state (so no tombstone is
inserted); removing the root under any of its spellings "", ".", "/" is
always rejected; and removing a nonexistent path propagates the lookup's
NotExist error. -/
theorem c8_remove_guards :
    (∀ (fs : FS) (p : Str) (now : Nat) (entry : Entry) (b : Str),
       WFS fs → CleanPath p →
       getEntry fs p = .ok entry → entry.mode.dir = true →
       SimpleName b →
       ((∃ e ∈ fs.layer, e.name = p ++ '/' :: b ∧ e.size ≠ -1) ∨
        ((∃ e ∈ fs.base, e.name = p ++ '/' :: b) ∧
         (∀ e ∈ fs.layer, e.name ≠ p ++ '/' :: b))) →
       Remove fs p now = .err ⟨"remove", p, ErrKind.dirNotEmpty⟩) ∧
    (∀ (fs : FS) (now : Nat),
       Remove fs (str "") now = .err ⟨"remove", [], ErrKind.rootForbidden⟩ ∧
       Remove fs (str ".") now = .err ⟨"remove", [], ErrKind.rootForbidden⟩ ∧
       Remove fs (str "/") now = .err ⟨"remove", [], ErrKind.rootForbidden⟩) ∧
    (∀ (fs : FS) (p : Str) (now : Nat) (er : PErr),
       CleanPath p → getEntry fs p = .err er →
       Remove fs p now = .err er ∧ er.kind = ErrKind.notExist) := by
  refine ⟨?_, ?_, ?_⟩
  · intro fs p now entry b hw hp hg hdir hb hchild_ex
    have hq : CleanPath (p ++ '/' :: b) := cleanPath_append_simple p b hp hb
    have hq_child : isDirectChild p (p ++ '/' :: b) = true :=
      (isDirectChild_sub p (p ++ '/' :: b) hp hq).mpr ⟨b, hb, rfl⟩
    have hq_base : baseName (p ++ '/' :: b) = b := baseName_append p b hp hb
    have hident : ∀ n : Str, CleanPath n → isDirectChild p n = true →
        baseName n = b → n = p ++ '/' :: b := by
      intro n hn hc hbn
      refine directChild_name_eq p n (p ++ '/' :: b) hn hq hc hq_child ?_ (Or.inr hp)
      rw [hbn, hq_base]
    have hne : readDir fs p ≠ [] := by
      rcases hchild_ex with ⟨e0, he0, hn0, hl0⟩ | ⟨⟨e0, he0, hn0⟩, hnone⟩
      · have hmem : ∃ de ∈ (layerPass p fs.layer [] []).2.2, de.name = b := by
          apply layerPass_out_mem p fs.layer [] [] b (by simp)
          · exact ⟨e0, he0, by rw [hn0]; exact hq_child, by rw [hn0]; exact hq_base, hl0⟩
          · intro f hf hcf hbf
            have hfn : f.name = p ++ '/' :: b :=
              hident f.name (hw.2.2.2.2.2.1 f hf) hcf hbf
            have : f = e0 := by
              apply nodup_entry_eq fs.layer hw.2.2.2.1 f e0 hf he0
              rw [hfn, hn0]
            rw [this]
            exact hl0
        obtain ⟨de, hde, _⟩ := hmem
        have : de ∈ readDir fs p := by
          rw [readDir, normPath_of_cleanPath p hp]
          exact List.mem_append_left _ hde
        exact List.ne_nil_of_mem this
      · have hseen : b ∉ (layerPass p fs.layer [] []).1 := by
          intro hc
          rcases layerPass_seen_sub p fs.layer [] [] b hc with h | ⟨f, hf, hcf, hbf⟩
          · simp at h
          · have hfn : f.name = p ++ '/' :: b :=
              hident f.name (hw.2.2.2.2.2.1 f hf) hcf hbf.symm
            exact hnone f hf hfn
        have htombs : b ∉ (layerPass p fs.layer [] []).2.1 := by
          intro hc
          rcases layerPass_tombs_sub p fs.layer [] [] b hc with h | ⟨f, hf, hcf, hbf⟩
          · simp at h
          · have hfn : f.name = p ++ '/' :: b :=
              hident f.name (hw.2.2.2.2.2.1 f hf) hcf hbf.symm
            exact hnone f hf hfn
        have hmem : ∃ de ∈ basePass p fs.base (layerPass p fs.layer [] []).1
            (layerPass p fs.layer [] []).2.1, de.name = b := by
          apply basePass_out_mem p fs.base _ _ b hseen htombs
          exact ⟨e0, he0, by rw [hn0]; exact hq_child, by rw [hn0]; exact hq_base⟩
        obtain ⟨de, hde, _⟩ := hmem
        have : de ∈ readDir fs p := by
          rw [readDir, normPath_of_cleanPath p hp]
          exact List.mem_append_right _ hde
        exact List.ne_nil_of_mem this
    rw [Remove, normPath_of_cleanPath p hp, if_neg hp.1, hg]
    dsimp only
    rw [if_pos ⟨hdir, hne⟩]
  · intro fs now
    exact ⟨rfl, rfl, rfl⟩
  · intro fs p now er hp hg
    constructor
    · rw [Remove, normPath_of_cleanPath p hp, if_neg hp.1, hg]
    · have := getEntry_err_shape fs p er hg
      rw [this]

/-- Witness: C8 applied to the layer directory `d` with live child `d/x`,
the root spellings, and a missing path `zz`. -/
theorem c8_remove_guards_witness :
    Remove fsDir (str "d") 3 = .err ⟨"remove", str "d", ErrKind.dirNotEmpty⟩ ∧
    Remove fsDir (str "/") 3 = .err ⟨"remove", [], ErrKind.rootForbidden⟩ ∧
    Remove fsDir (str "zz") 3 = .err ⟨"stat", str "zz", ErrKind.notExist⟩ :=
  ⟨c8_remove_guards.1 fsDir (str "d") 3 entDirD (str "x") (by decide) (by decide)
     (by decide) rfl (by decide) (by decide),
   (c8_remove_guards.2.1 fsDir 3).2.2,
   (c8_remove_guards.2.2 fsDir (str "zz") 3 ⟨"stat", str "zz", ErrKind.notExist⟩
     (by decide) (by decide)).1⟩

/-! ## C10: writes do not require parents -/

theorem removeFirstNamed_sub (m : Manifest) (n : Str) :
    ∀ f ∈ removeFirstNamed m n, f ∈ m := by
  induction m with
  | nil =>
    intro f hf
    simp [removeFirstNamed] at hf
  | cons e rest ih =>
    intro f hf
    rw [removeFirstNamed] at hf
    by_cases he : e.name = n
    · rw [if_pos he] at hf
      simp [hf]
    · rw [if_neg he] at hf
      rcases List.mem_cons.mp hf with rfl | hf
      · simp
      · simp [ih f hf]

theorem removeFirstNamed_no_name (m : Manifest) (n : Str)
    (hd : (m.map Entry.name).Nodup) :
    ∀ f ∈ removeFirstNamed m n, f.name ≠ n := by
  induction m with
  | nil =>
    intro f hf
    simp [removeFirstNamed] at hf
  | cons e rest ih =>
    rw [List.map_cons, List.nodup_cons] at hd
    intro f hf
    rw [removeFirstNamed] at hf
    by_cases he : e.name = n
    · rw [if_pos he] at hf
      intro hc
      apply hd.1
      rw [he, ← hc]
      exact List.mem_map_of_mem Entry.name hf
    · rw [if_neg he] at hf
      rcases List.mem_cons.mp hf with rfl | hf
      · exact he
      · exact ih hd.2 f hf

theorem mem_updateEntryInLayer_self (fs : FS) (e : Entry) :
    e ∈ (updateEntryInLayer fs e).layer := by
  rw [updateEntryInLayer]
  cases idxFind? fs.layerIndex e.name <;> simp [addEntry]

theorem mem_updateEntryInLayer_elim (fs : FS) (e : Entry) (f : Entry)
    (hf : f ∈ (updateEntryInLayer fs e).layer) :
    f = e ∨ (f ∈ fs.layer ∧ f ∈ removeFirstNamed fs.layer e.name) ∨
      (f ∈ fs.layer ∧ idxFind? fs.layerIndex e.name = none) := by
  rw [updateEntryInLayer] at hf
  cases hidx : idxFind? fs.layerIndex e.name with
  | some g =>
    rw [hidx] at hf
    simp only [addEntry] at hf
    rcases List.mem_append.mp hf with hm | hm
    · exact Or.inr (Or.inl ⟨removeFirstNamed_sub _ _ f hm, hm⟩)
    · exact Or.inl (by simpa using hm)
  | none =>
    rw [hidx] at hf
    simp only [addEntry] at hf
    rcases List.mem_append.mp hf with hm | hm
    · exact Or.inr (Or.inr ⟨hm, rfl⟩)
    · exact Or.inl (by simpa using hm)

theorem walkComps_first_err (fs : FS) (c : Str) (rest : List Str)
    (hc : SimpleName c) (e : PErr) (hl : lstatEntry fs c = .err e) :
    walkComps fs (c :: rest) [] = .err e := by
  have hne : ¬ (c = [] ∨ c = str ".") := by
    push_neg
    exact ⟨hc.1, hc.2.2.1⟩
  simp [walkComps, hne, hl]

theorem getEntry_notFound (fs : FS) (p : Str) (hp : CleanPath p)
    (hl : idxFind? fs.layerIndex p = none)
    (hb : idxFind? fs.baseIndex p = none) :
    getEntry fs p = .err ⟨"stat", p, ErrKind.notExist⟩ := by
  rw [getEntry]
  simp only [normPath_of_cleanPath p hp]
  rw [if_neg hp.1, hl, hb]

theorem append_slash_ne_left (a c : Str) : a ++ '/' :: c ≠ a := by
  intro hc
  have := congrArg List.length hc
  simp at this

/-- C10 is false as stated on the code: on the empty filesystem,
`WriteFile("p/q", [2])` succeeds with no parent entry, but `ReadFile("p/q")`
does not return the payload — it fails NotExist at the missing parent. -/
theorem c10_orphan_counterexample :
    WriteFile fs0 (str "p/q") [2] (filePerm 0o644) 1 = .ok fsOrphan2 ∧
    ReadFile fsOrphan2 (str "p/q") = .err ⟨"lstat", str "p", ErrKind.notExist⟩ ∧
    ReadFile fsOrphan2 (str "p/q") ≠ .ok [2] := by decide

/-- C10 (amended): `WriteFile` never requires the parent directory to exist:
for every well-formed state and path `dirn/b` whose parent `dirn` has no
entry in either manifest, `WriteFile` succeeds, after which the child `b`
appears in `ReadDir(dirn)` and `Exists(dirn)` remains false — but
`ReadFile(dirn/b)` fails NotExist, because resolution lstats the missing
parent component. -/
theorem c10_write_orphan (fs : FS) (dirn b : Str) (d : List Nat) (perm : Mode)
    (now : Nat) (fs' : FS)
    (hw : WFS fs) (hd : SimpleName dirn) (hb : SimpleName b)
    (hnol : ∀ e ∈ fs.layer, e.name ≠ dirn)
    (hnob : ∀ e ∈ fs.base, e.name ≠ dirn)
    (h : WriteFile fs (dirn ++ '/' :: b) d perm now = .ok fs') :
    ReadFile fs' (dirn ++ '/' :: b) = .err ⟨"lstat", dirn, ErrKind.notExist⟩ ∧
    (∃ de ∈ ReadDir fs' dirn, de.name = b) ∧
    existsPath fs' dirn = false := by
  have hdc : CleanPath dirn := cleanPath_of_simple dirn hd
  have hp : CleanPath (dirn ++ '/' :: b) := cleanPath_append_simple dirn b hdc hb
  rw [WriteFile] at h
  injection h with h
  subst h
  set eW : Entry := ⟨perm, now, (d.length : Int), clean (dirn ++ '/' :: b),
    (storePut fs.store d).1, []⟩ with heW
  set fsX : FS := updateEntryInLayer { fs with store := (storePut fs.store d).2 } eW
    with hfsX
  have hname : eW.name = dirn ++ '/' :: b := clean_of_cleanPath _ hp
  have hne_dirn : eW.name ≠ dirn := by
    rw [hname]
    exact append_slash_ne_left dirn b
  have hfindL : idxFind? fsX.layerIndex dirn = none := by
    rw [hfsX, idxFind?_updateEntryInLayer, if_neg hne_dirn]
    have h1 : ({ fs with store := (storePut fs.store d).2 } : FS).layerIndex =
        fs.layerIndex := rfl
    rw [h1, layerFind_eq fs dirn hw, manifestGet?_eq_none_iff]
    exact hnol
  have hfindB : idxFind? fsX.baseIndex dirn = none := by
    have h1 : fsX.baseIndex = fs.baseIndex := rfl
    rw [h1, baseFind_eq fs dirn hw, manifestGet?_eq_none_iff]
    exact hnob
  have hlstat : lstatEntry fsX dirn = .err ⟨"lstat", dirn, ErrKind.notExist⟩ :=
    lstatEntry_notFound fsX dirn hdc hfindL hfindB
  have hsplit : splitOnSlash (dirn ++ '/' :: b) = [dirn, b] := by
    rw [splitOnSlash_append_slash, splitOnSlash_no_slash dirn hd.2.1,
      splitOnSlash_no_slash b hb.2.1]
    rfl
  refine ⟨?_, ?_, ?_⟩
  · have hres : resolveSymlink fsX (dirn ++ '/' :: b) 40 =
        .err ⟨"lstat", dirn, ErrKind.notExist⟩ := by
      have h40 : (40 : Nat) = 39 + 1 := rfl
      rw [h40, resolveSymlink]
      simp only [clean_of_cleanPath _ hp, hsplit]
      rw [walkComps_first_err fsX dirn [b] hd _ hlstat]
    rw [ReadFile, Open, hres]
  · have hchild : isDirectChild dirn (dirn ++ '/' :: b) = true :=
      (isDirectChild_sub dirn (dirn ++ '/' :: b) hdc hp).mpr ⟨b, hb, rfl⟩
    have hbn : baseName (dirn ++ '/' :: b) = b := baseName_append dirn b hdc hb
    have hident : ∀ n : Str, CleanPath n → isDirectChild dirn n = true →
        baseName n = b → n = dirn ++ '/' :: b := by
      intro n hn hcn hbnn
      refine directChild_name_eq dirn n (dirn ++ '/' :: b) hn hp hcn hchild ?_
        (Or.inr hdc)
      rw [hbnn, hbn]
    have hsize : eW.size ≠ -1 := by
      rw [heW]
      intro hc
      simp only at hc
      omega
    have hmem : ∃ de ∈ (layerPass dirn fsX.layer [] []).2.2, de.name = b := by
      apply layerPass_out_mem dirn fsX.layer [] [] b (by simp)
      · refine ⟨eW, ?_, by rw [hname]; exact hchild, by rw [hname]; exact hbn, hsize⟩
        rw [hfsX]
        exact mem_updateEntryInLayer_self _ eW
      · intro f hf hcf hbf
        rw [hfsX] at hf
        rcases mem_updateEntryInLayer_elim _ eW f hf with rfl | ⟨hfl, hfr⟩ | ⟨hfl, _⟩
        · exact hsize
        · exfalso
          have hfn : f.name = dirn ++ '/' :: b :=
            hident f.name (hw.2.2.2.2.2.1 f hfl) hcf hbf
          have := removeFirstNamed_no_name fs.layer eW.name hw.2.2.2.1 f hfr
          rw [hname] at this
          exact this hfn
        · exfalso
          have hfn : f.name = dirn ++ '/' :: b :=
            hident f.name (hw.2.2.2.2.2.1 f hfl) hcf hbf
          rename_i hidx
          rw [layerFind_eq fs _ hw, manifestGet?_eq_none_iff] at hidx
          exact hidx f hfl (by rw [hfn, ← hname])
    obtain ⟨de, hde, hdb⟩ := hmem
    refine ⟨de, ?_, hdb⟩
    rw [ReadDir, readDir, normPath_of_cleanPath dirn hdc]
    exact List.mem_append_left _ hde
  · have hget : getEntry fsX dirn = .err ⟨"stat", dirn, ErrKind.notExist⟩ :=
      getEntry_notFound fsX dirn hdc hfindL hfindB
    rw [existsPath, hget]

/-- Witness: the amended C10 theorem applied to writing `d/f` on the empty
filesystem. -/
theorem c10_write_orphan_witness :
    ReadFile fsOrphan (str "d" ++ '/' :: str "f") =
      .err ⟨"lstat", str "d", ErrKind.notExist⟩ ∧
    (∃ de ∈ ReadDir fsOrphan (str "d"), de.name = str "f") ∧
    existsPath fsOrphan (str "d") = false :=
  c10_write_orphan fs0 (str "d") (str "f") [1] (filePerm 0o644) 1 fsOrphan
    (by decide) (by decide) (by decide) (by decide) (by decide) (by decide)

/-! ## C5: symlink hop budget -/

theorem containsSlash_replicate (n : Nat) :
    containsSlash (List.replicate n 'l') = false := by
  induction n with
  | zero => rfl
  | succ n ih => simpa [containsSlash, List.replicate_succ] using ih

theorem simpleName_linkName (i : Nat) : SimpleName (linkName i) := by
  have hmem : 'l' ∈ linkName i :=
    List.mem_replicate.mpr ⟨by omega, rfl⟩
  refine ⟨by simp [linkName], containsSlash_replicate (i + 1), ?_, ?_⟩
  · intro h
    rw [h] at hmem
    simp [str] at hmem
  · intro h
    rw [h] at hmem
    simp [str] at hmem

theorem linkName_injective : Function.Injective linkName := by
  intro i j h
  have := congrArg List.length h
  simp [linkName] at this
  exact this

theorem chainLayer_names_nodup (n : Nat) :
    ((chainLayer n).map Entry.name).Nodup := by
  rw [chainLayer, List.map_append, List.map_map]
  have h1 : (Entry.name ∘ linkEntry) = linkName := by
    funext i
    rfl
  rw [h1]
  rw [List.nodup_append]
  refine ⟨List.Nodup.map linkName_injective (List.nodup_range n), by simp, ?_⟩
  intro x hx hx2
  obtain ⟨i, hi, rfl⟩ := List.mem_map.mp hx
  have hxn : linkName i = (chainFile n).name := by simpa using hx2
  have : i = n := linkName_injective hxn
  rw [this] at hi
  exact absurd (List.mem_range.mp hi) (by omega)

theorem chainWFS (n : Nat) : WFS (chainFS n) := by
  refine ⟨rfl, rfl, by simp [chainFS, NewWithLayer], chainLayer_names_nodup n,
    by simp [New, NewWithLayer, chainFS], ?_, by simp [New, NewWithLayer, chainFS]⟩
  intro e he
  rw [chainFS] at he
  have he' : e ∈ chainLayer n := he
  rw [chainLayer] at he'
  rcases List.mem_append.mp he' with hm | hm
  · obtain ⟨i, _, rfl⟩ := List.mem_map.mp hm
    exact cleanPath_of_simple _ (simpleName_linkName i)
  · have : e = chainFile n := by simpa using hm
    rw [this]
    exact cleanPath_of_simple _ (simpleName_linkName n)

theorem chain_lstat_link (n i : Nat) (hi : i < n) :
    lstatEntry (chainFS n) (linkName i) = .ok (linkEntry i) := by
  apply lstatEntry_layerFound _ _ _ (cleanPath_of_simple _ (simpleName_linkName i))
  · rw [layerFind_eq _ _ (chainWFS n)]
    have hmem : linkEntry i ∈ (chainFS n).layer := by
      have : linkEntry i ∈ chainLayer n :=
        List.mem_append_left _ (List.mem_map_of_mem linkEntry (List.mem_range.mpr hi))
      exact this
    exact manifestGet?_eq_some_of_mem _ _ (chainLayer_names_nodup n) hmem
  · intro h
    cases h

theorem chain_lstat_file (n : Nat) :
    lstatEntry (chainFS n) (linkName n) = .ok (chainFile n) := by
  apply lstatEntry_layerFound _ _ _ (cleanPath_of_simple _ (simpleName_linkName n))
  · rw [layerFind_eq _ _ (chainWFS n)]
    have hmem : chainFile n ∈ (chainFS n).layer := by
      have : chainFile n ∈ chainLayer n := List.mem_append_right _ (by simp)
      exact this
    exact manifestGet?_eq_some_of_mem _ _ (chainLayer_names_nodup n) hmem
  · intro h
    cases h

theorem chain_resolve (n : Nat) :
    ∀ (fuel i : Nat), i ≤ n →
      resolveSymlink (chainFS n) (linkName i) fuel =
        if n - i < fuel then .ok (chainFile n)
        else .err ⟨"stat", linkName (i + fuel), ErrKind.tooManyLinks⟩ := by
  intro fuel
  induction fuel with
  | zero =>
    intro i hi
    rw [resolveSymlink, if_neg (by omega)]
    simp
  | succ fuel ih =>
    intro i hi
    by_cases hin : i = n
    · subst hin
      rw [resolveSymlink_simple_final _ _ (simpleName_linkName i) fuel (chainFile i)
        (chain_lstat_file i) rfl]
      rw [if_pos (by omega)]
    · have hi' : i < n := lt_of_le_of_ne hi hin
      rw [resolveSymlink_simple_step _ _ (simpleName_linkName i) fuel (linkEntry i)
        (chain_lstat_link n i hi') rfl]
      have ht : (linkEntry i).target = linkName (i + 1) := rfl
      rw [ht, ih (i + 1) (by omega)]
      by_cases hfc : n - i < fuel + 1
      · rw [if_pos (by omega), if_pos hfc]
      · rw [if_neg (by omega), if_neg hfc]
        have harith : i + 1 + fuel = i + (fuel + 1) := by omega
        rw [harith]

/-- C5 is false as stated on the code: a chain of depth exactly 40 — equal to
the hop budget — fails with "too many levels of symbolic links" even though
its depth does not exceed the budget. -/
theorem c5_chain40_counterexample :
    Stat (chainFS 40) (linkName 0) =
      .err ⟨"stat", linkName 40, ErrKind.tooManyLinks⟩ := by
  rw [Stat, chain_resolve 40 40 0 (by omega), if_neg (by omega)]

/-- C5 (amended): with the hop budget of 40, resolving through a chain of
symlinks of depth strictly below the budget (at most 39) returns the final
non-symlink entry, while a chain of depth 40 or more — including depth
exactly 40 — or a cyclic pair of symlinks fails with the "too many levels of
symbolic links" error. -/
theorem c5_symlink_budget :
    (∀ n : Nat, n ≤ 39 → Stat (chainFS n) (linkName 0) = .ok (mkInfo (chainFile n))) ∧
    (∀ n : Nat, 40 ≤ n → Stat (chainFS n) (linkName 0) =
      .err ⟨"stat", linkName 40, ErrKind.tooManyLinks⟩) ∧
    Stat cycFS (str "a") = .err ⟨"stat", str "a", ErrKind.tooManyLinks⟩ := by
  refine ⟨?_, ?_, ?_⟩
  · intro n hn
    rw [Stat, chain_resolve n 40 0 (by omega), if_pos (by omega)]
  · intro n hn
    rw [Stat, chain_resolve n 40 0 (by omega), if_neg (by omega)]
  · decide

/-- Witness: the amended C5 theorem at depths 39 and 40. -/
theorem c5_symlink_budget_witness :
    Stat (chainFS 39) (linkName 0) = .ok (mkInfo (chainFile 39)) ∧
    Stat (chainFS 40) (linkName 0) =
      .err ⟨"stat", linkName 40, ErrKind.tooManyLinks⟩ :=
  ⟨c5_symlink_budget.1 39 (by omega), c5_symlink_budget.2.1 40 (by omega)⟩

/-! ## Lemmas: Rename building blocks -/

theorem insertAll_baseIndex : ∀ (l : List Entry) (fs : FS),
    (insertAll fs l).baseIndex = fs.baseIndex
  | [], _ => rfl
  | _ :: rest, fs => by
    rw [insertAll, insertAll_baseIndex rest, updateEntryInLayer_baseIndex]

theorem tombstoneAll_baseIndex (now : Nat) : ∀ (l : List Entry) (fs : FS),
    (tombstoneAll now fs l).baseIndex = fs.baseIndex
  | [], _ => rfl
  | _ :: rest, fs => by
    rw [tombstoneAll, tombstoneAll_baseIndex now rest, updateEntryInLayer_baseIndex]

/-- Effect of a batch insert on the layer index: the last inserted entry
with the requested name wins, otherwise the old binding is kept. -/
theorem insertAll_find (l : List Entry) :
    ∀ (fs : FS) (x : Str),
      idxFind? (insertAll fs l).layerIndex x =
        match manifestGet? l.reverse x with
        | some e => some e
        | none => idxFind? fs.layerIndex x := by
  induction l with
  | nil => intro fs x; rfl
  | cons e rest ih =>
    intro fs x
    rw [insertAll, ih, List.reverse_cons, manifestGet?_append]
    cases hr : manifestGet? rest.reverse x with
    | some f => rfl
    | none =>
      rw [idxFind?_updateEntryInLayer]
      simp only [manifestGet?]
      by_cases he : e.name = x
      · rw [if_pos he, if_pos he]
      · rw [if_neg he, if_neg he]

/-- Effect of a batch tombstone pass on the layer index. -/
theorem tombstoneAll_find (now : Nat) (l : List Entry) :
    ∀ (fs : FS) (x : Str),
      idxFind? (tombstoneAll now fs l).layerIndex x =
        if ∃ e ∈ l, e.name = x then some (tombstoneEntry x now)
        else idxFind? fs.layerIndex x := by
  induction l with
  | nil =>
    intro fs x
    rw [tombstoneAll, if_neg (by simp)]
  | cons e rest ih =>
    intro fs x
    rw [tombstoneAll, ih]
    by_cases hrest : ∃ f ∈ rest, f.name = x
    · obtain ⟨f, hf, hfx⟩ := hrest
      rw [if_pos ⟨f, hf, hfx⟩, if_pos ⟨f, by simp [hf], hfx⟩]
    · rw [if_neg hrest, idxFind?_updateEntryInLayer]
      by_cases he : e.name = x
      · have h1 : (tombstoneEntry e.name now).name = x := he
        rw [if_pos h1, if_pos ⟨e, by simp, he⟩, he]
      · have h1 : (tombstoneEntry e.name now).name ≠ x := he
        rw [if_neg h1, if_neg ?hnone]
        case hnone =>
          rintro ⟨f, hf, hfx⟩
          rcases List.mem_cons.mp hf with rfl | hf
          · exact he hfx
          · exact hrest ⟨f, hf, hfx⟩

/-- `mergeEntry` behaves as a keyed overwrite for lookups. -/
theorem mergeEntry_get (acc : List Entry) (e : Entry) (n : Str) :
    manifestGet? (mergeEntry acc e) n =
      if e.name = n then some e else manifestGet? acc n := by
  induction acc with
  | nil =>
    by_cases hen : e.name = n
    · simp [mergeEntry, manifestGet?, if_pos hen]
    · simp [mergeEntry, manifestGet?, if_neg hen]
  | cons x rest ih =>
    rw [mergeEntry]
    by_cases hx : x.name = e.name
    · rw [if_pos hx]
      by_cases hen : e.name = n
      · rw [manifestGet?, if_pos hen, if_pos hen]
      · rw [manifestGet?, if_neg hen, if_neg hen, manifestGet?,
          if_neg (by rw [hx]; exact hen)]
    · rw [if_neg hx]
      by_cases hxn : x.name = n
      · have hen : e.name ≠ n := by
          rw [← hxn]
          exact fun hc => hx hc.symm
        rw [manifestGet?, if_pos hxn, if_neg hen, manifestGet?, if_pos hxn]
      · rw [manifestGet?, if_neg hxn, ih]
        by_cases hen : e.name = n
        · rw [if_pos hen, if_pos hen]
        · rw [if_neg hen, if_neg hen, manifestGet?, if_neg hxn]

theorem mergeEntry_mem (acc : List Entry) (e : Entry) :
    ∀ f ∈ mergeEntry acc e, f ∈ acc ∨ f = e := by
  induction acc with
  | nil =>
    intro f hf
    rw [mergeEntry] at hf
    rcases List.mem_singleton.mp hf with rfl
    exact Or.inr rfl
  | cons x rest ih =>
    intro f hf
    rw [mergeEntry] at hf
    by_cases hx : x.name = e.name
    · rw [if_pos hx] at hf
      rcases List.mem_cons.mp hf with rfl | hf
      · exact Or.inr rfl
      · exact Or.inl (by simp [hf])
    · rw [if_neg hx] at hf
      rcases List.mem_cons.mp hf with rfl | hf
      · exact Or.inl (by simp)
      · rcases ih f hf with h | h
        · exact Or.inl (by simp [h])
        · exact Or.inr h

theorem mergeEntry_names_sub (acc : List Entry) (e : Entry) :
    ∀ x ∈ (mergeEntry acc e).map Entry.name,
      x ∈ acc.map Entry.name ∨ x = e.name := by
  intro x hx
  obtain ⟨f, hf, hfx⟩ := List.mem_map.mp hx
  rcases mergeEntry_mem acc e f hf with h | rfl
  · exact Or.inl (hfx ▸ List.mem_map_of_mem Entry.name h)
  · exact Or.inr hfx.symm

theorem mergeEntry_nodup (acc : List Entry) (e : Entry)
    (hd : (acc.map Entry.name).Nodup) :
    ((mergeEntry acc e).map Entry.name).Nodup := by
  induction acc with
  | nil => simp [mergeEntry]
  | cons x rest ih =>
    rw [List.map_cons, List.nodup_cons] at hd
    rw [mergeEntry]
    by_cases hx : x.name = e.name
    · rw [if_pos hx, List.map_cons, List.nodup_cons]
      exact ⟨hx ▸ hd.1, hd.2⟩
    · rw [if_neg hx, List.map_cons, List.nodup_cons]
      refine ⟨?_, ih hd.2⟩
      intro hmem
      rcases mergeEntry_names_sub rest e x.name hmem with h | h
      · exact hd.1 h
      · exact hx h

theorem layerMerge_mem (old : Str) (m : Manifest) :
    ∀ acc, ∀ f ∈ layerMerge old m acc,
      f ∈ acc ∨ (f ∈ m ∧ f.size ≠ -1 ∧ inSubtree old f.name = true) := by
  induction m with
  | nil =>
    intro acc f hf
    exact Or.inl hf
  | cons e rest ih =>
    intro acc f hf
    rw [layerMerge] at hf
    by_cases hts : e.size = -1
    · rw [if_pos hts] at hf
      rcases ih acc f hf with h | ⟨h1, h2, h3⟩
      · exact Or.inl h
      · exact Or.inr ⟨by simp [h1], h2, h3⟩
    · rw [if_neg hts] at hf
      by_cases hsub : inSubtree old e.name
      · rw [if_pos hsub] at hf
        rcases ih (mergeEntry acc e) f hf with h | ⟨h1, h2, h3⟩
        · rcases mergeEntry_mem acc e f h with h | rfl
          · exact Or.inl h
          · exact Or.inr ⟨by simp, hts, hsub⟩
        · exact Or.inr ⟨by simp [h1], h2, h3⟩
      · rw [if_neg hsub] at hf
        rcases ih acc f hf with h | ⟨h1, h2, h3⟩
        · exact Or.inl h
        · exact Or.inr ⟨by simp [h1], h2, h3⟩

theorem layerMerge_nodup (old : Str) (m : Manifest) :
    ∀ acc, (acc.map Entry.name).Nodup →
      ((layerMerge old m acc).map Entry.name).Nodup := by
  induction m with
  | nil =>
    intro acc hd
    exact hd
  | cons e rest ih =>
    intro acc hd
    rw [layerMerge]
    by_cases hts : e.size = -1
    · rw [if_pos hts]
      exact ih acc hd
    · rw [if_neg hts]
      by_cases hsub : inSubtree old e.name
      · rw [if_pos hsub]
        exact ih (mergeEntry acc e) (mergeEntry_nodup acc e hd)
      · rw [if_neg hsub]
        exact ih acc hd

/-- If no live subtree entry of the scanned layer carries the requested
name, the merge leaves that name's binding in the accumulator unchanged. -/
theorem layerMerge_get_none (old : Str) (m : Manifest) (n : Str) :
    ∀ acc, (∀ f ∈ m, f.size ≠ -1 → inSubtree old f.name = true → f.name ≠ n) →
      manifestGet? (layerMerge old m acc) n = manifestGet? acc n := by
  induction m with
  | nil =>
    intro acc _
    rfl
  | cons e rest ih =>
    intro acc h
    have hrest : ∀ f ∈ rest, f.size ≠ -1 → inSubtree old f.name = true → f.name ≠ n :=
      fun f hf => h f (by simp [hf])
    rw [layerMerge]
    by_cases hts : e.size = -1
    · rw [if_pos hts]
      exact ih acc hrest
    · rw [if_neg hts]
      by_cases hsub : inSubtree old e.name
      · rw [if_pos hsub, ih (mergeEntry acc e) hrest, mergeEntry_get,
          if_neg (h e (by simp) hts hsub)]
      · rw [if_neg hsub]
        exact ih acc hrest

/-- A live subtree entry of a duplicate-free layer survives the merge and
wins the lookup at its name. -/
theorem layerMerge_get_some (old : Str) (m : Manifest) (e : Entry)
    (hd : (m.map Entry.name).Nodup) (hm : e ∈ m) (hlive : e.size ≠ -1)
    (hsub : inSubtree old e.name = true) :
    ∀ acc, manifestGet? (layerMerge old m acc) e.name = some e := by
  induction m with
  | nil => simp at hm
  | cons x rest ih =>
    intro acc
    rw [List.map_cons, List.nodup_cons] at hd
    rcases List.mem_cons.mp hm with rfl | hm
    · rw [layerMerge, if_neg hlive, if_pos hsub,
        layerMerge_get_none old rest e.name (mergeEntry acc e) ?hn,
        mergeEntry_get, if_pos rfl]
      case hn =>
        intro f hf _ _ hfe
        exact hd.1 (hfe ▸ List.mem_map_of_mem Entry.name hf)
    · rw [layerMerge]
      by_cases hts : x.size = -1
      · rw [if_pos hts]
        exact ih hd.2 hm acc
      · rw [if_neg hts]
        by_cases hxs : inSubtree old x.name
        · rw [if_pos hxs]
          exact ih hd.2 hm (mergeEntry acc x)
        · rw [if_neg hxs]
          exact ih hd.2 hm acc

theorem baseDesc_mem (old : Str) (m : Manifest) :
    ∀ f ∈ baseDesc old m, f ∈ m ∧ inSubtree old f.name = true := by
  induction m with
  | nil => simp [baseDesc]
  | cons e rest ih =>
    intro f hf
    rw [baseDesc] at hf
    by_cases hsub : inSubtree old e.name
    · rw [if_pos hsub] at hf
      rcases List.mem_cons.mp hf with rfl | hf
      · exact ⟨by simp, hsub⟩
      · obtain ⟨h1, h2⟩ := ih f hf
        exact ⟨by simp [h1], h2⟩
    · rw [if_neg hsub] at hf
      obtain ⟨h1, h2⟩ := ih f hf
      exact ⟨by simp [h1], h2⟩

theorem baseDesc_mem_of (old : Str) (m : Manifest) (e : Entry)
    (hm : e ∈ m) (hsub : inSubtree old e.name = true) :
    e ∈ baseDesc old m := by
  induction m with
  | nil => simp at hm
  | cons x rest ih =>
    rw [baseDesc]
    rcases List.mem_cons.mp hm with rfl | hm
    · rw [if_pos hsub]
      simp
    · by_cases hxs : inSubtree old x.name
      · rw [if_pos hxs]
        exact List.mem_cons_of_mem x (ih hm)
      · rw [if_neg hxs]
        exact ih hm

theorem baseDesc_names_sublist (old : Str) (m : Manifest) :
    ((baseDesc old m).map Entry.name).Sublist (m.map Entry.name) := by
  induction m with
  | nil => simp [baseDesc]
  | cons e rest ih =>
    rw [baseDesc]
    by_cases hsub : inSubtree old e.name
    · rw [if_pos hsub, List.map_cons, List.map_cons]
      exact ih.cons₂ e.name
    · rw [if_neg hsub, List.map_cons]
      exact ih.cons e.name

theorem baseDesc_nodup (old : Str) (m : Manifest)
    (hd : (m.map Entry.name).Nodup) :
    ((baseDesc old m).map Entry.name).Nodup :=
  hd.sublist (baseDesc_names_sublist old m)

theorem baseDesc_get_some (old : Str) (m : Manifest) (e : Entry)
    (hd : (m.map Entry.name).Nodup) (hm : e ∈ m)
    (hsub : inSubtree old e.name = true) :
    manifestGet? (baseDesc old m) e.name = some e :=
  manifestGet?_eq_some_of_mem (baseDesc old m) e (baseDesc_nodup old m hd)
    (baseDesc_mem_of old m e hm hsub)

theorem baseDesc_get_none (old : Str) (m : Manifest) (n : Str)
    (h : ∀ f ∈ m, inSubtree old f.name = true → f.name ≠ n) :
    manifestGet? (baseDesc old m) n = none := by
  rw [manifestGet?_eq_none_iff]
  intro f hf
  obtain ⟨h1, h2⟩ := baseDesc_mem old m f hf
  exact h f h1 h2

theorem replaceFirst_pre (old nw s : Str) (hs : isPre old s = true)
    (hne : s ≠ []) :
    replaceFirst old nw s = nw ++ s.drop old.length := by
  cases s with
  | nil => exact absurd rfl hne
  | cons c rest => rw [replaceFirst, if_pos hs]

theorem replaceFirst_self (old nw : Str) (hne : old ≠ []) :
    replaceFirst old nw old = nw := by
  have h1 : isPre old old = true := by
    have := isPre_append old []
    rwa [List.append_nil] at this
  rw [replaceFirst_pre old nw old h1 hne, List.drop_length, List.append_nil]

theorem replaceFirst_under (old nw r : Str) (hne : old ≠ []) :
    replaceFirst old nw (old ++ '/' :: r) = nw ++ '/' :: r := by
  have h1 : isPre old (old ++ '/' :: r) = true := isPre_append old ('/' :: r)
  rw [replaceFirst_pre old nw _ h1 (by simp), List.drop_left]

theorem isPre_slash_mid (a zs : Str) :
    isPre (a ++ ['/']) (a ++ '/' :: zs) = true := by
  have := isPre_append (a ++ ['/']) zs
  simpa using this

theorem inSubtree_self (old : Str) : inSubtree old old = true := by
  rw [inSubtree, if_pos rfl]

theorem inSubtree_under (old r : Str) :
    inSubtree old (old ++ '/' :: r) = true := by
  rw [inSubtree]
  by_cases h : old ++ '/' :: r = old
  · rw [if_pos h]
  · rw [if_neg h]
    exact isPre_slash_mid old r

theorem inSubtree_shape (old q : Str) (h : inSubtree old q = true) :
    q = old ∨ ∃ r, q = old ++ '/' :: r := by
  rw [inSubtree] at h
  by_cases hq : q = old
  · exact Or.inl hq
  · rw [if_neg hq] at h
    obtain ⟨t, ht⟩ := (isPre_iff_exists (old ++ ['/']) q).mp h
    refine Or.inr ⟨t, ?_⟩
    rw [ht, List.append_assoc]
    rfl

theorem inSubtree_false_parts (old q : Str) (h : inSubtree old q = false) :
    q ≠ old ∧ isPre (old ++ ['/']) q = false := by
  rw [inSubtree] at h
  by_cases hq : q = old
  · rw [if_pos hq] at h
    exact absurd h (by simp)
  · rw [if_neg hq] at h
    exact ⟨hq, h⟩

/-- Two prefix-incomparable directory names span disjoint subtrees: a path
shaped under one is never a path shaped under the other. -/
theorem shape_ne (old nw : Str) (h1 : inSubtree old nw = false)
    (h2 : inSubtree nw old = false) :
    ∀ t u : Str, (t = [] ∨ ∃ r, t = '/' :: r) → (u = [] ∨ ∃ r, u = '/' :: r) →
      old ++ t ≠ nw ++ u := by
  intro t u ht hu heq
  obtain ⟨hne1, hpre1⟩ := inSubtree_false_parts old nw h1
  obtain ⟨hne2, hpre2⟩ := inSubtree_false_parts nw old h2
  rcases List.append_eq_append_iff.mp heq with ⟨a2, ha1, ha2⟩ | ⟨c2, hc1, hc2⟩
  · cases a2 with
    | nil =>
      rw [List.append_nil] at ha1
      exact hne1 ha1
    | cons z zs =>
      rcases ht with rfl | ⟨r, rfl⟩
      · simp at ha2
      · rw [List.cons_append] at ha2
        injection ha2 with hz _
        rw [← hz] at ha1
        have hp : isPre (old ++ ['/']) nw = true := by
          rw [ha1]
          exact isPre_slash_mid old zs
        simp [hp] at hpre1
  · cases c2 with
    | nil =>
      rw [List.append_nil] at hc1
      exact hne2 hc1
    | cons z zs =>
      rcases hu with rfl | ⟨r, rfl⟩
      · simp at hc2
      · rw [List.cons_append] at hc2
        injection hc2 with hz _
        rw [← hz] at hc1
        have hp : isPre (nw ++ ['/']) old = true := by
          rw [hc1]
          exact isPre_slash_mid nw zs
        simp [hp] at hpre2

theorem cleanPath_suffix (a r : Str) (h : CleanPath (a ++ '/' :: r)) :
    CleanPath r := by
  have hsplit := splitOnSlash_append_slash a r
  refine ⟨?_, ?_⟩
  · intro hr
    have hmem : ([] : Str) ∈ splitOnSlash (a ++ '/' :: r) := by
      rw [hsplit, hr]
      simp [splitOnSlash]
    exact (h.2 [] hmem).1 rfl
  · intro c hc
    exact h.2 c (by rw [hsplit]; exact List.mem_append_right _ hc)

/-- Names of paths in the `old` subtree stay clean after the prefix
substitution with a clean `nw`. -/
theorem replaceFirst_cleanPath (old nw q : Str) (hold : CleanPath old)
    (hnw : CleanPath nw) (hq : CleanPath q) (hsub : inSubtree old q = true) :
    CleanPath (replaceFirst old nw q) := by
  rcases inSubtree_shape old q hsub with heq | ⟨r, heq⟩
  · rw [heq, replaceFirst_self old nw hold.1]
    exact hnw
  · rw [heq, replaceFirst_under old nw r hold.1]
    exact cleanPath_append nw r hnw (cleanPath_suffix old r (heq ▸ hq))

/-- A successful `getEntry` on a well-formed state returns an entry carrying
the requested name, found live in the layer or unshadowed in the base. -/
theorem getEntry_ok_cases (fs : FS) (q : Str) (e : Entry) (hw : WFS fs)
    (hq : CleanPath q) (h : getEntry fs q = .ok e) :
    e.name = q ∧ ((e ∈ fs.layer ∧ e.size ≠ -1) ∨
      ((∀ f ∈ fs.layer, f.name ≠ q) ∧ e ∈ fs.base)) := by
  rw [getEntry] at h
  simp only [normPath_of_cleanPath q hq] at h
  rw [if_neg hq.1, layerFind_eq fs q hw] at h
  cases hl : manifestGet? fs.layer q with
  | some f =>
    rw [hl] at h
    dsimp only at h
    by_cases hts : f.size = -1
    · rw [if_pos hts] at h
      cases h
    · rw [if_neg hts] at h
      injection h with hfe
      obtain ⟨hm, hn⟩ := manifestGet?_mem fs.layer q f hl
      subst hfe
      exact ⟨hn, Or.inl ⟨hm, hts⟩⟩
  | none =>
    rw [hl, baseFind_eq fs q hw] at h
    dsimp only at h
    cases hb : manifestGet? fs.base q with
    | some g =>
      rw [hb] at h
      injection h with hge
      obtain ⟨hm, hn⟩ := manifestGet?_mem fs.base q g hb
      subst hge
      exact ⟨hn, Or.inr ⟨(manifestGet?_eq_none_iff fs.layer q).mp hl, hm⟩⟩
    | none =>
      rw [hb] at h
      cases h

theorem inSubtree_shape2 (old q : Str) (h : inSubtree old q = true) :
    ∃ t, q = old ++ t ∧ (t = [] ∨ ∃ r, t = '/' :: r) := by
  rcases inSubtree_shape old q h with heq | ⟨r, heq⟩
  · exact ⟨[], by rw [heq, List.append_nil], Or.inl rfl⟩
  · exact ⟨'/' :: r, heq, Or.inr ⟨r, rfl⟩⟩

theorem replaceFirst_shape (old nw q : Str) (holdne : old ≠ [])
    (h : inSubtree old q = true) :
    ∃ t, replaceFirst old nw q = nw ++ t ∧ (t = [] ∨ ∃ r, t = '/' :: r) := by
  rcases inSubtree_shape old q h with heq | ⟨r, heq⟩
  · exact ⟨[], by rw [heq, replaceFirst_self old nw holdne, List.append_nil],
      Or.inl rfl⟩
  · exact ⟨'/' :: r, by rw [heq, replaceFirst_under old nw r holdne],
      Or.inr ⟨r, rfl⟩⟩

/-- The prefix substitution is injective on the old subtree. -/
theorem replaceFirst_inj_on (old nw x y : Str) (holdne : old ≠ [])
    (hx : inSubtree old x = true) (hy : inSubtree old y = true)
    (h : replaceFirst old nw x = replaceFirst old nw y) : x = y := by
  rcases inSubtree_shape old x hx with hex | ⟨r, hex⟩ <;>
    rcases inSubtree_shape old y hy with hey | ⟨s, hey⟩
  · rw [hex, hey]
  · rw [hex, replaceFirst_self old nw holdne, hey,
      replaceFirst_under old nw s holdne] at h
    have := congrArg List.length h
    simp at this
  · rw [hex, replaceFirst_under old nw r holdne, hey,
      replaceFirst_self old nw holdne] at h
    have := congrArg List.length h
    simp at this
  · rw [hex, replaceFirst_under old nw r holdne, hey,
      replaceFirst_under old nw s holdne] at h
    have h2 := List.append_cancel_left h
    injection h2 with _ h3
    rw [hex, hey, h3]

theorem renameRewrites_mem (old nw : Str) (l : List Entry) :
    ∀ g ∈ renameRewrites old nw l, ∃ f ∈ l,
      g = ⟨f.mode, f.timestamp, f.size, replaceFirst old nw f.name, f.c4id,
        f.target⟩ := by
  intro g hg
  rw [renameRewrites] at hg
  obtain ⟨f, hf, hfg⟩ := List.mem_map.mp hg
  exact ⟨f, hf, hfg.symm⟩

theorem renameRewrites_nodup (old nw : Str) (l : List Entry) (holdne : old ≠ [])
    (hl : ∀ f ∈ l, inSubtree old f.name = true)
    (hd : (l.map Entry.name).Nodup) :
    ((renameRewrites old nw l).map Entry.name).Nodup := by
  have hmm : (renameRewrites old nw l).map Entry.name
      = (l.map Entry.name).map (replaceFirst old nw) := by
    rw [renameRewrites, List.map_map, List.map_map]
    rfl
  rw [hmm]
  refine List.Nodup.map_on ?_ hd
  intro x hx y hy hxy
  obtain ⟨f, hf, rfl⟩ := List.mem_map.mp hx
  obtain ⟨g, hg, rfl⟩ := List.mem_map.mp hy
  exact replaceFirst_inj_on old nw f.name g.name holdne (hl f hf) (hl g hg) hxy

/-- Every entry collected for the directory rename lies in the old subtree,
carries a clean name, and is live. -/
theorem toRename_mem_props (fs : FS) (old : Str) (hw : WFS fs) :
    ∀ f ∈ layerMerge old fs.layer (baseDesc old fs.base),
      inSubtree old f.name = true ∧ CleanPath f.name ∧ f.size ≠ -1 := by
  intro f hf
  rcases layerMerge_mem old fs.layer (baseDesc old fs.base) f hf with
    hacc | ⟨hm, hlive, hsub⟩
  · obtain ⟨hmb, hsub⟩ := baseDesc_mem old fs.base f hacc
    exact ⟨hsub, hw.2.2.2.2.1 f hmb, hw.2.2.2.2.2.2 f hmb⟩
  · exact ⟨hsub, hw.2.2.2.2.2.1 f hm, hlive⟩

theorem toRename_nodup (fs : FS) (old : Str) (hw : WFS fs) :
    ((layerMerge old fs.layer (baseDesc old fs.base)).map Entry.name).Nodup :=
  layerMerge_nodup old fs.layer (baseDesc old fs.base)
    (baseDesc_nodup old fs.base hw.2.2.1)

/-- The rename collection agrees with the composed view on the old subtree:
whatever `getEntry` resolves there is exactly what gets renamed. -/
theorem toRename_get_of_getEntry (fs : FS) (old q : Str) (e : Entry)
    (hw : WFS fs) (hq : CleanPath q) (hsub : inSubtree old q = true)
    (h : getEntry fs q = .ok e) :
    manifestGet? (layerMerge old fs.layer (baseDesc old fs.base)) q = some e := by
  obtain ⟨hname, hcases⟩ := getEntry_ok_cases fs q e hw hq h
  rcases hcases with ⟨hm, hlive⟩ | ⟨hnone, hm⟩
  · have := layerMerge_get_some old fs.layer e hw.2.2.2.1 hm hlive
      (by rw [hname]; exact hsub) (baseDesc old fs.base)
    rwa [hname] at this
  · rw [layerMerge_get_none old fs.layer q (baseDesc old fs.base)
      (fun f hf _ _ => hnone f hf)]
    have := baseDesc_get_some old fs.base e hw.2.2.1 hm (by rw [hname]; exact hsub)
    rwa [hname] at this

/-- C6 is false as stated on the code: renaming the directory `d` onto
`d/e` succeeds (the new name does not exist beforehand), yet afterwards the
path `d/e` — which lies under the old prefix `d` — exists in the composed
view, so the old prefix does not become entirely non-existent. -/
theorem c6_rename_counterexample :
    getEntry fsDir (str "d") = .ok entDirD ∧ entDirD.mode.dir = true ∧
    Rename fsDir (str "d") (str "d/e") 7 = .ok fsRenCE ∧
    inSubtree (str "d") (str "d/e") = true ∧
    existsPath fsRenCE (str "d/e") = true := by decide

/-- C6 (amended): for a successful rename of a directory `old` to a
prefix-incomparable clean name `nw` on a well-formed state, (1) every path
of the old subtree that resolved in the composed view resolves afterwards
at the prefix-substituted path with unchanged mode, timestamp, size,
fingerprint and symlink target, and (2) every path of the old subtree (the
directory itself and everything below it) afterwards fails lookup with
NotExist. -/
theorem c6_rename_subtree (fs : FS) (old nw : Str) (now : Nat) (fs' : FS)
    (oldE : Entry) (hw : WFS fs) (hold : CleanPath old) (hnw : CleanPath nw)
    (hget : getEntry fs old = .ok oldE) (hdir : oldE.mode.dir = true)
    (hinc1 : inSubtree old nw = false) (hinc2 : inSubtree nw old = false)
    (h : Rename fs old nw now = .ok fs') :
    (∀ q e, CleanPath q → inSubtree old q = true → getEntry fs q = .ok e →
       getEntry fs' (replaceFirst old nw q) =
         .ok ⟨e.mode, e.timestamp, e.size, replaceFirst old nw q, e.c4id,
           e.target⟩) ∧
    (∀ q, CleanPath q → inSubtree old q = true →
       getEntry fs' q = .err ⟨"stat", q, ErrKind.notExist⟩) := by
  have holdne : old ≠ [] := hold.1
  rw [Rename] at h
  rw [normPath_of_cleanPath old hold, normPath_of_cleanPath nw hnw] at h
  rw [if_neg (by push_neg; exact ⟨holdne, hnw.1⟩)] at h
  rw [hget] at h
  dsimp only at h
  by_cases hex : existsPath fs nw = true
  · rw [if_pos hex] at h
    cases h
  · rw [if_neg hex] at h
    rw [if_pos hdir] at h
    injection h with hfs
    subst hfs
    constructor
    · intro q e hq hsub hqe
      have hrwclean : CleanPath (replaceFirst old nw q) :=
        replaceFirst_cleanPath old nw q hold hnw hq hsub
      have hTRget : manifestGet? (layerMerge old fs.layer (baseDesc old fs.base)) q
          = some e := toRename_get_of_getEntry fs old q e hw hq hsub hqe
      have heTR : e ∈ layerMerge old fs.layer (baseDesc old fs.base) :=
        (manifestGet?_mem _ q e hTRget).1
      have hename : e.name = q := (manifestGet?_mem _ q e hTRget).2
      have helive : e.size ≠ -1 := (toRename_mem_props fs old hw e heTR).2.2
      have hnot : ¬ ∃ f ∈ layerMerge old fs.layer (baseDesc old fs.base),
          f.name = replaceFirst old nw q := by
        rintro ⟨f, hf, hfname⟩
        obtain ⟨t, hft, hts⟩ := inSubtree_shape2 old f.name
          (toRename_mem_props fs old hw f hf).1
        obtain ⟨u, hqu, hus⟩ := replaceFirst_shape old nw q holdne hsub
        exact shape_ne old nw hinc1 hinc2 t u hts hus (by rw [← hft, hfname, hqu])
      have hrwnodup : ((renameRewrites old nw
          (layerMerge old fs.layer (baseDesc old fs.base))).map Entry.name).Nodup :=
        renameRewrites_nodup old nw _ holdne
          (fun f hf => (toRename_mem_props fs old hw f hf).1)
          (toRename_nodup fs old hw)
      have hrwmem : (⟨e.mode, e.timestamp, e.size, replaceFirst old nw q, e.c4id,
          e.target⟩ : Entry) ∈ renameRewrites old nw
            (layerMerge old fs.layer (baseDesc old fs.base)) := by
        rw [renameRewrites, ← hename]
        exact List.mem_map_of_mem _ heTR
      have hrev : manifestGet? (renameRewrites old nw
          (layerMerge old fs.layer (baseDesc old fs.base))).reverse
            (replaceFirst old nw q) =
          some ⟨e.mode, e.timestamp, e.size, replaceFirst old nw q, e.c4id,
            e.target⟩ := by
        rw [manifestGet?_reverse_nodup _ _ hrwnodup]
        exact manifestGet?_eq_some_of_mem _ _ hrwnodup hrwmem
      have hidx : idxFind? (tombstoneAll now (insertAll fs (renameRewrites old nw
          (layerMerge old fs.layer (baseDesc old fs.base))))
            (layerMerge old fs.layer (baseDesc old fs.base))).layerIndex
          (replaceFirst old nw q) =
          some ⟨e.mode, e.timestamp, e.size, replaceFirst old nw q, e.c4id,
            e.target⟩ := by
        rw [tombstoneAll_find, if_neg hnot, insertAll_find, hrev]
      rw [getEntry]
      simp only [normPath_of_cleanPath (replaceFirst old nw q) hrwclean]
      rw [if_neg hrwclean.1, hidx]
      dsimp only
      rw [if_neg helive]
    · intro q hq hsub
      by_cases htomb : ∃ f ∈ layerMerge old fs.layer (baseDesc old fs.base),
          f.name = q
      · have hidx : idxFind? (tombstoneAll now (insertAll fs (renameRewrites old nw
            (layerMerge old fs.layer (baseDesc old fs.base))))
              (layerMerge old fs.layer (baseDesc old fs.base))).layerIndex q =
            some (tombstoneEntry q now) := by
          rw [tombstoneAll_find, if_pos htomb]
        rw [getEntry]
        simp only [normPath_of_cleanPath q hq]
        rw [if_neg hq.1, hidx]
        simp [tombstoneEntry]
      · have hnorw : manifestGet? (renameRewrites old nw
            (layerMerge old fs.layer (baseDesc old fs.base))).reverse q = none := by
          rw [manifestGet?_eq_none_iff]
          intro g hg
          have hg2 : g ∈ renameRewrites old nw
              (layerMerge old fs.layer (baseDesc old fs.base)) :=
            List.mem_reverse.mp hg
          obtain ⟨f, hf, rfl⟩ := renameRewrites_mem old nw _ g hg2
          obtain ⟨t, hft, hts⟩ := replaceFirst_shape old nw f.name holdne
            ((toRename_mem_props fs old hw f hf).1)
          obtain ⟨u, hqu, hus⟩ := inSubtree_shape2 old q hsub
          show replaceFirst old nw f.name ≠ q
          rw [hft, hqu]
          exact shape_ne nw old hinc2 hinc1 t u hts hus
        have hidx : idxFind? (tombstoneAll now (insertAll fs (renameRewrites old nw
            (layerMerge old fs.layer (baseDesc old fs.base))))
              (layerMerge old fs.layer (baseDesc old fs.base))).layerIndex q =
            idxFind? fs.layerIndex q := by
          rw [tombstoneAll_find, if_neg htomb, insertAll_find, hnorw]
        rw [getEntry]
        simp only [normPath_of_cleanPath q hq]
        rw [if_neg hq.1, hidx, layerFind_eq fs q hw]
        cases hl : manifestGet? fs.layer q with
        | some f =>
          have hmemf := manifestGet?_mem fs.layer q f hl
          by_cases hts : f.size = -1
          · dsimp only
            rw [if_pos hts]
          · exfalso
            apply htomb
            refine ⟨f, ?_, hmemf.2⟩
            have h2 := layerMerge_get_some old fs.layer f hw.2.2.2.1 hmemf.1 hts
              (by rw [hmemf.2]; exact hsub) (baseDesc old fs.base)
            exact (manifestGet?_mem _ _ _ h2).1
        | none =>
          dsimp only
          rw [tombstoneAll_baseIndex, insertAll_baseIndex, baseFind_eq fs q hw]
          cases hb : manifestGet? fs.base q with
          | some g =>
            exfalso
            apply htomb
            have hmemg := manifestGet?_mem fs.base q g hb
            refine ⟨g, ?_, hmemg.2⟩
            have hlnone : ∀ f ∈ fs.layer, f.size ≠ -1 →
                inSubtree old f.name = true → f.name ≠ q :=
              fun f hf _ _ => (manifestGet?_eq_none_iff fs.layer q).mp hl f hf
            have h1 := layerMerge_get_none old fs.layer q (baseDesc old fs.base) hlnone
            have h2 := baseDesc_get_some old fs.base g hw.2.2.1 hmemg.1
              (by rw [hmemg.2]; exact hsub)
            rw [hmemg.2] at h2
            have h3 : manifestGet? (layerMerge old fs.layer (baseDesc old fs.base)) q
                = some g := by rw [h1, h2]
            exact (manifestGet?_mem _ _ _ h3).1
          | none => rfl

/-- Witness: renaming directory `d` to `n` on the two-entry fixture moves
the child `d/x` to `n/x` with identical payload fields, and `d/x` afterwards
fails lookup with NotExist. -/
theorem c6_rename_subtree_witness :
    getEntry fsRenW (replaceFirst (str "d") (str "n") (str "d/x")) =
      .ok ⟨entFileDX.mode, entFileDX.timestamp, entFileDX.size,
        replaceFirst (str "d") (str "n") (str "d/x"), entFileDX.c4id,
        entFileDX.target⟩ ∧
    getEntry fsRenW (str "d/x") = .err ⟨"stat", str "d/x", ErrKind.notExist⟩ := by
  have h := c6_rename_subtree fsDir (str "d") (str "n") 7 fsRenW entDirD
    (by decide) (by decide) (by decide) (by decide) (by decide) (by decide)
    (by decide) (by decide)
  exact ⟨h.1 (str "d/x") entFileDX (by decide) (by decide) (by decide),
    h.2 (str "d/x") (by decide) (by decide)⟩

end C4fs
